import Mathlib

/-!
Verification of the RAG pipeline in `src/rgz` (ingest.py, rag_service.py,
config.py) against its natural-language specification.

The Python sources are shallowly embedded: pure functions become Lean
functions; the external collaborators (chromadb collections, the sentence
transformer embedding function, the md5 hex digest, the ollama chat service)
are modelled at their interface boundary, as the spec prescribes in section 6:
the collection is an association list from id to stored entry, the embedding
function and the digest are abstract function parameters, and the chat service
is an oracle giving the outcome of each attempt.  Python exceptions become an
explicit `PyExc` value threaded through `Except`.
-/

set_option maxRecDepth 8000
set_option maxHeartbeats 1600000

/-- Python exception values that the embedded code can raise or catch.
`runtimeError` models `RuntimeError`, `nameError` models `NameError`
(raised when a global name is not defined), and `other` stands for any
further exception class (e.g. what `pypdf` raises on a corrupt file). -/
inductive PyExc where
  | runtimeError (msg : String)
  | nameError (msg : String)
  | other (msg : String)
deriving DecidableEq, Repr

deriving instance DecidableEq for Except

/-- Python whitespace, the character class stripped by `str.strip()`. -/
def isPyWs (c : Char) : Bool :=
  c = ' ' ∨ c = '\t' ∨ c = '\n' ∨ c = '\x0d' ∨ c = '\x0b' ∨ c = '\x0c'

/-- Characters counting as indentation for `textwrap.dedent` (regex `[ \t]`). -/
def isIndentChar (c : Char) : Bool := c = ' ' ∨ c = '\t'

/-- Remove leading Python whitespace from a character list (`str.lstrip()`). -/
def lstripChars (l : List Char) : List Char := l.dropWhile isPyWs

/-- Remove trailing Python whitespace from a character list (`str.rstrip()`). -/
def rstripChars (l : List Char) : List Char := ((l.reverse).dropWhile isPyWs).reverse

/-- Embedding of Python `str.strip()` on character lists. -/
def stripChars (l : List Char) : List Char := rstripChars (lstripChars l)

/-- Embedding of Python `str.strip()`. -/
def pyStrip (s : String) : String := String.mk (stripChars s.data)

/-- Embedding of Python `str.rstrip()`. -/
def pyRstrip (s : String) : String := String.mk (rstripChars s.data)

/-- Embedding of Python `text.split(chr(10))`: split a character list at every
newline; the result always has one more piece than there are newlines. -/
def splitNlChars : List Char → List (List Char)
  | [] => [[]]
  | c :: cs =>
    if c = '\n' then [] :: splitNlChars cs
    else
      match splitNlChars cs with
      | [] => [[c]]
      | l :: ls => (c :: l) :: ls

/-- Join lines with newline characters, the inverse of `splitNlChars`. -/
def joinNl : List (List Char) → List Char
  | [] => []
  | [l] => l
  | l :: ls => l ++ '\n' :: joinNl ls

/-- Normalisation step of `textwrap.dedent`: a line consisting solely of
spaces and tabs (regex `^[ \t]+$`) is replaced by an empty line. -/
def normalizeLine (l : List Char) : List Char :=
  if l.isEmpty then l
  else if l.all isIndentChar then [] else l

/-- Longest common prefix of two character lists, the combination step for
`textwrap.dedent`'s margin. -/
def lcp : List Char → List Char → List Char
  | x :: xs, y :: ys => if x = y then x :: lcp xs ys else []
  | _, _ => []

/-- Leading whitespace of a line, contributed to the dedent margin only when a
character other than space, tab or newline follows it
(regex `(^[ \t]*)(?:[^ \t\n])`). -/
def lineIndent (l : List Char) : Option (List Char) :=
  match l.dropWhile isIndentChar with
  | [] => none
  | c :: _ => if c = '\n' then none else some (l.takeWhile isIndentChar)

/-- Margin computed by `textwrap.dedent`: the longest common prefix of the
indents of all lines that have non-whitespace content. -/
def marginOf (lines : List (List Char)) : List Char :=
  match lines.filterMap lineIndent with
  | [] => []
  | i :: is => is.foldl lcp i

/-- Remove the margin from the front of every line that starts with it
(`re.sub`, multiline, of `^` plus the margin). -/
def removeMargin (m : List Char) (l : List Char) : List Char :=
  if m.isPrefixOf l then l.drop m.length else l

/-- Embedding of `textwrap.dedent` on character lists: normalise
whitespace-only lines, compute the margin over the normalised lines, then
strip the margin from every line. -/
def dedentChars (s : List Char) : List Char :=
  let lines := (splitNlChars s).map normalizeLine
  let m := marginOf lines
  joinNl (lines.map (removeMargin m))

/-- Embedding of `textwrap.dedent`. -/
def pyDedent (s : String) : String := String.mk (dedentChars s.data)

/-- Embedding of Python `sep.join(parts)`. -/
def joinSep (sep : String) : List String → String
  | [] => ""
  | [x] => x
  | x :: xs => x ++ sep ++ joinSep sep xs

/-- Substring test on character lists: `needle` occurs contiguously in
`hay` (Python `needle in hay`). -/
def infixOf (needle hay : List Char) : Bool :=
  (List.range (hay.length + 1)).any fun i => needle.isPrefixOf (hay.drop i)

/-- True when the string contains no newline character. -/
def noNl (s : String) : Bool := s.data.all fun c => ¬ (c = '\n')

/-- True for the characters that `textwrap.dedent` and `str.strip` can never
touch: everything except Python whitespace. -/
def keepVisible (c : Char) : Bool := ! isPyWs c

/-- Non-whitespace content of a string, in order.  The prompt pipeline
(dedent, margin removal, strip) only ever deletes whitespace, so this
sequence is its invariant. -/
def visibleChars (s : String) : List Char := s.data.filter keepVisible

namespace Ingest

/-- Metadata dictionary attached to a document or chunk, as built in
`ingest.py`.  The fields are optional because `upsert_chunks` reads them
with `dict.get` and a default. -/
structure ChunkMeta where
  source : Option String
  chunk : Option Nat
  filename : Option String
deriving DecidableEq, Repr

/-- RawDocument of the spec: the pair `(text, metadata)` appended by
`load_documents` for each readable file. -/
structure RawDocument where
  text : String
  source : String
  filename : String
deriving DecidableEq, Repr

/-- Source file as seen by `load_documents`: its path relative to `BASE_DIR`,
its basename, its lowercased suffix, and the outcome of running the
format-specific extractor (`read_txt` / `read_pdf` / `read_docx`) on it.  The
extractors call external libraries, so their outcome is part of the input:
`.ok text` when extraction returns text, `.error e` when it raises. -/
structure SrcFile where
  relpath : String
  name : String
  suffix : String
  extracted : Except PyExc String
deriving DecidableEq, Repr

/-- Embedding of `load_documents` (ingest.py lines 37-63) over the sequence of
files enumerated by the four `rglob` patterns.  For each file the extractor
runs; a whitespace-only result skips the file (`if not text.strip(): continue`);
the loop body has no `try`/`except`, so an extractor exception propagates and
aborts the whole scan. -/
def load_documents : List SrcFile → Except PyExc (List RawDocument)
  | [] => .ok []
  | f :: fs =>
    match f.extracted with
    | .error e => .error e
    | .ok text =>
      if (pyStrip text) = "" then load_documents fs
      else do
        let docs ← load_documents fs
        pure ({ text := text, source := f.relpath, filename := f.name } :: docs)

/-- Embedding of `build_chunks` (ingest.py lines 66-77).  The
`RecursiveCharacterTextSplitter` instance is an external library object; it is
passed in as the function `split`, and each document contributes one chunk and
one metadata dict per piece, the metadata extending the document's with the
0-based chunk index (`enumerate`). -/
def build_chunks (split : String → List String) (docs : List RawDocument) :
    List String × List ChunkMeta :=
  let rows := docs.flatMap fun d =>
    (split d.text).enum.map fun p =>
      (p.2, ChunkMeta.mk (some d.source) (some p.1) (some d.filename))
  (rows.map Prod.fst, rows.map Prod.snd)

/-- Stored entry of the Vector Index: document text, metadata and embedding
vector, with the embedding type abstract. -/
structure Entry (E : Type) where
  text : String
  meta : ChunkMeta
  emb : E
deriving DecidableEq, Repr

/-- Modelled from the spec (section 6, Vector Index): a chromadb collection,
owned by the external chromadb library whose code is not part of this
repository.  It persists `(id, vector, text, metadata)` rows keyed by id, so
it is modelled as an association list from id to entry. -/
def Collection (E : Type) : Type := List (String × Entry E)

/-- Modelled from the spec (section 6): `client.delete_collection(name)` of the
external chromadb client drops the named collection, and raises when no such
collection exists.  The client state holds at most the one collection named
`COLLECTION_NAME`, so it is an `Option`. -/
def delete_collection (state : Option (Collection E)) :
    Except PyExc (Option (Collection E)) :=
  match state with
  | some _ => .ok none
  | none => .error (.other "Collection does not exist.")

/-- Embedding of `ensure_collection` (ingest.py lines 80-93).  When `reset` is
set, `delete_collection` runs inside `try`/`except Exception: pass`, so its
failure on a missing collection is swallowed; then `get_or_create_collection`
returns the surviving collection or a fresh empty one.  The nested
`try`/`except` around `get_or_create_collection` only retries with explicit
hnsw metadata and cannot fail in this model, so the function is total. -/
def ensure_collection (state : Option (Collection E)) (reset : Bool) :
    Collection E :=
  let st :=
    if reset then
      match delete_collection state with
      | .ok s => s
      | .error _ => state
    else state
  st.getD []

/-- Raw id string built by `upsert_chunks` for the metadata at batch ordinal
`idx`: `source::chunk::idx` with `dict.get` defaults. -/
def rawId (meta : ChunkMeta) (idx : Nat) : String :=
  (meta.source.getD "unknown") ++ "::" ++ toString (meta.chunk.getD idx) ++ "::"
    ++ toString idx

/-- Ids of a batch from ordinal `idx` upward, mirroring
`for idx, meta in enumerate(metadatas)` in `upsert_chunks` (ingest.py lines
104-107).  `md5hex` abstracts `hashlib.md5(...).hexdigest()`, a pure
deterministic function of the raw id string provided by the standard
library. -/
def idsFrom (md5hex : String → String) (idx : Nat) : List ChunkMeta → List String
  | [] => []
  | m :: ms => md5hex (rawId m idx) :: idsFrom md5hex (idx + 1) ms

/-- Ids assigned to a whole batch of metadata dicts by `upsert_chunks`. -/
def chunkIds (md5hex : String → String) (metas : List ChunkMeta) : List String :=
  idsFrom md5hex 0 metas

/-- Modelled from the spec (section 6, Vector Index upsert): store one row
under its id, overwriting an existing row with that id and appending
otherwise. -/
def upsertOne (c : Collection E) (id : String) (e : Entry E) : Collection E :=
  match c with
  | [] => [(id, e)]
  | (k, v) :: rest =>
    if k = id then (k, e) :: rest else (k, v) :: upsertOne rest id e

/-- Modelled from the spec (section 6): `collection.upsert` over a batch of
`(id, entry)` rows, later rows of the batch winning on id collision. -/
def upsertBatch (c : Collection E) (rows : List (String × Entry E)) :
    Collection E :=
  rows.foldl (fun acc p => upsertOne acc p.1 p.2) c

/-- Embedding of `upsert_chunks` (ingest.py lines 95-114): ensure the
collection (honouring `reset`), derive the deterministic ids, embed every text
with the external embedding function `embed`, and upsert the batch.  The
resulting client state holds the mutated collection. -/
def upsert_chunks (md5hex : String → String) (embed : String → E)
    (texts : List String) (metas : List ChunkMeta) (reset : Bool)
    (state : Option (Collection E)) : Option (Collection E) :=
  let coll := ensure_collection state reset
  let ids := chunkIds md5hex metas
  let entries := texts.zip metas |>.map fun p => Entry.mk p.1 p.2 (embed p.1)
  some (upsertBatch coll (ids.zip entries))

/-- Messages printed by `main`, distinguishing its three exits. -/
inductive MainMsg where
  | noDocuments
  | noChunks
  | ingested (n : Nat)
deriving DecidableEq, Repr

/-- Embedding of `main` (ingest.py lines 117-137): load the documents (an
extractor exception propagates), return before touching the index when no
documents or no chunks result, otherwise upsert and report the chunk count. -/
def main (split : String → List String) (md5hex : String → String)
    (embed : String → E) (files : List SrcFile) (reset : Bool)
    (state : Option (Collection E)) :
    Except PyExc (Option (Collection E) × MainMsg) := do
  let docs ← load_documents files
  if docs.isEmpty then
    pure (state, .noDocuments)
  else
    let (texts, metas) := build_chunks split docs
    if texts.isEmpty then
      pure (state, .noChunks)
    else
      pure (upsert_chunks md5hex embed texts metas reset state, .ingested texts.length)

/-- Number of entries stored in the client state's collection (zero when the
collection does not exist). -/
def storedCount (state : Option (Collection E)) : Nat := (state.getD []).length

end Ingest

namespace RagService

open Ingest (ChunkMeta)

/-- RetrievedPassage of the spec: document text, metadata and distance, the
distance type abstract (chromadb reports floats whose values the service never
inspects). -/
abbrev Passage (D : Type) := String × ChunkMeta × D

/-- Reply of `collection.query` as unpacked by `retrieve`: the first row of the
`documents`, `metadatas` and `distances` fields. -/
structure QueryReply (D : Type) where
  documents : List String
  metadatas : List ChunkMeta
  distances : List D

/-- Error message substring that `retrieve` uses to recognise a corrupted
persisted index. -/
def headerErrMarker : String := "Cannot open header file"

/-- Remediation message raised by `retrieve` for a corrupted index
(rag_service.py lines 65-68). -/
def corruptDbMsg : String :=
  "База данных повреждена. Удалите папку \u0027chroma_db\u0027 и запустите:\npython ingest.py --reset"

/-- Embedding of `RagService.retrieve` (rag_service.py lines 54-73).  The
outcome of the external `collection.query` call is the input `qr`; a
`RuntimeError` whose text contains the header-file marker is replaced by the
fatal remediation error, every other exception re-raises unchanged, and a
successful reply is zipped into passages. -/
def retrieve (qr : Except PyExc (QueryReply D)) :
    Except PyExc (List (Passage D)) :=
  match qr with
  | .error (.runtimeError m) =>
    if infixOf headerErrMarker.data m.data then .error (.runtimeError corruptDbMsg)
    else .error (.runtimeError m)
  | .error e => .error e
  | .ok r => .ok (r.documents.zip (r.metadatas.zip r.distances))

/-- System template of `_build_prompt` exactly as written in the source
f-string (12 spaces of indentation per line, one whitespace-only line). -/
def sysTemplate : String :=
  "            Ты — опытный русскоязычный образовательный ассистент. Отвечай ТОЛЬКО на русском языке.\n            \n            ПРАВИЛА:\n            1. Используй ТОЛЬКО информацию из контекста\n            2. Если информации нет — честно скажи об этом\n            3. Не выдумывай факты\n            4. Будь дружелюбным и полезным\n            5. Отвечай кратко и по делу, используй списки и эмодзи для структуры, давай практичные советы, если применимо.\n            "

/-- Placeholder inserted when the context string is empty. -/
def noContextMsg : String := "Контекст не найден."

/-- User template of `_build_prompt` after f-string interpolation: the
question and the context field spliced into the indented source literal. -/
def userTemplate (question ctxField : String) : String :=
  "            Запрос пользователя: " ++ question
    ++ "\n            \n            Контекст из базы знаний:\n            "
    ++ ctxField ++ "\n            "

/-- Provenance-tagged context part for one passage:
`f"[{src}] {doc}"` with the `source` metadata defaulting to `unknown`. -/
def contextPart (p : Passage D) : String :=
  "[" ++ (p.2.1.source.getD "unknown") ++ "] " ++ p.1

/-- Context block of `_build_prompt`: the tagged parts joined by blank
lines, in the order the passages were supplied. -/
def contextOf (docs : List (Passage D)) : String :=
  joinSep "\n\n" (docs.map contextPart)

/-- Embedding of `RagService._build_prompt` (rag_service.py lines 75-109):
both messages are built by dedenting and stripping the interpolated
templates; the empty context string is replaced by the placeholder. -/
def build_prompt (question : String) (docs : List (Passage D)) :
    String × String :=
  let context := contextOf docs
  let ctxField := if context = "" then noContextMsg else context
  (pyStrip (pyDedent sysTemplate),
   pyStrip (pyDedent (userTemplate question ctxField)))

/-- Outcome of one `ollama.chat` call, reported by the external service: a
well-formed answer, or a `ResponseError` carrying an optional status code and
the error text. -/
inductive ChatResult where
  | success (answer : String)
  | responseError (status : Option Int) (text : String)

/-- Python `f"({status})"` rendering of the status attribute. -/
def statusRepr : Option Int → String
  | some n => toString n
  | none => "None"

/-- Text of the fatal error for a non-overload service failure:
`f"Ollama error ({status}): {message}"` with the empty stripped text replaced
by `service unavailable` (rag_service.py lines 134 and 151). -/
def genErrMsg (status : Option Int) (errText : String) : String :=
  "Ollama error (" ++ statusRepr status ++ "): "
    ++ (if pyStrip errText = "" then "service unavailable" else pyStrip errText)

/-- Remediation message built after the third consecutive 503
(rag_service.py lines 143-149). -/
def overloadMsg : String :=
  "Ollama сервис перегружен или недоступен (503).\n\nПопробуйте:\n• Подождать 10-30 секунд и повторить запрос\n• Проверить, что Ollama запущен: `ollama list`\n• Перезапустить Ollama сервис"

/-- Message of the `NameError` raised by evaluating `time.sleep`:
`rag_service.py` never imports the `time` module, so the name lookup on line
140 fails. -/
def timeNameErr : String := "name \u0027time\u0027 is not defined"

/-- Outcome of the retry loop of `generate_answer`, together with the number
of `ollama.chat` calls that were made. -/
inductive GenOutcome where
  | success (answer : String) (calls : Nat)
  | raised (e : PyExc) (calls : Nat)
deriving DecidableEq, Repr

/-- Embedding of the `for attempt in range(3)` retry loop of
`generate_answer` (rag_service.py lines 120-154).  `responses` is the oracle
for the external chat service, `made` counts chat calls so far and `lastExc`
is the `last_exc` variable.  On a 503 with `attempt < 2` the code logs and
then evaluates `time.sleep(wait_time)`; since `time` is not imported, that
raises `NameError` inside the handler and propagates, so the `continue` that
would re-enter the loop is unreachable. -/
def genLoop (responses : Nat → ChatResult) (made : Nat)
    (lastExc : Option PyExc) : List Nat → GenOutcome
  | [] => .raised (lastExc.getD (.runtimeError "Unknown Ollama error")) made
  | attempt :: _rest =>
    match responses attempt with
    | .success ans => .success ans (made + 1)
    | .responseError status errText =>
      if status = some 503 then
        if attempt < 2 then
          .raised (.nameError timeNameErr) (made + 1)
        else
          .raised (.runtimeError overloadMsg) (made + 1)
      else
        .raised (.runtimeError (genErrMsg status errText)) (made + 1)

/-- Result of one `generate_answer` call: the value returned or exception
raised, with the number of chat attempts and of retrieval calls made. -/
structure GenRun (D : Type) where
  result : Except PyExc (String × List (Passage D))
  chatCalls : Nat
  retrieveCalls : Nat

/-- Embedding of `RagService.generate_answer` (rag_service.py lines 111-154):
retrieve once (its failure propagates with no chat attempt), build the
prompt, then run the three-attempt loop. -/
def generate_answer (qr : Except PyExc (QueryReply D))
    (responses : Nat → ChatResult) (question : String) : GenRun D :=
  match retrieve qr with
  | .error e => ⟨.error e, 0, 1⟩
  | .ok docs =>
    let _prompts := build_prompt question docs
    match genLoop responses 0 none [0, 1, 2] with
    | .success ans n => ⟨.ok (ans, docs), n, 1⟩
    | .raised e n => ⟨.error e, n, 1⟩

/-- Claimed ordering property of the user message, for the refutation of the
claim that the context block is followed by the question: there is an
occurrence of the question that comes after a full occurrence of the context
block. -/
def ctxBeforeQuestion (msg ctx question : String) : Bool :=
  (List.range (msg.data.length + 1)).any fun p =>
    question.data.isPrefixOf (msg.data.drop p) && infixOf ctx.data (msg.data.take p)

end RagService

namespace Chunker

/-!
Modelled from the spec: `ingest.py` delegates text splitting to
`langchain_text_splitters.RecursiveCharacterTextSplitter`, an external library
whose code is not part of this repository; only its caller `build_chunks` is.
The model below follows the words of spec section 4.2: splitting is recursive
and boundary-aware, preferring larger structural boundaries before smaller
ones (the paragraph/sentence levels collapse to the newline boundary, then the
word boundary), pieces keep their separator so that concatenating all pieces
reconstructs the text, adjacent pieces are merged greedily into chunks of at
most `chunk_size` characters, and when starting a new chunk the merge retains
a suffix of whole pieces of total length at most `chunk_overlap` as the
overlap repeated between consecutive chunks.  A piece that no boundary can
split (a single atomic token) is kept whole even when longer than
`chunk_size`, the exception the spec grants.  Empty documents produce zero
chunks.
-/

/-- Split a character list at every occurrence of the boundary character,
keeping the boundary attached to the piece it ends; no piece is empty and
concatenating the pieces restores the input. -/
def splitKeepChar (sep : Char) : List Char → List (List Char)
  | [] => []
  | c :: cs =>
    if c = sep then [c] :: splitKeepChar sep cs
    else
      match splitKeepChar sep cs with
      | [] => [[c]]
      | p :: ps => (c :: p) :: ps

/-- Recursive boundary-aware splitting into atomic pieces: a piece short
enough is kept, an over-long piece is split at the next (smaller) boundary
level, and a piece that survives every level is atomic and kept whole. -/
def recSplit (size : Nat) : List Char → List Char → List (List Char)
  | [], t => [t]
  | s :: rest, t =>
    if t.length ≤ size then [t]
    else
      (splitKeepChar s t).flatMap fun piece =>
        if piece.length ≤ size then [piece] else recSplit size rest piece

/-- Total character length of a list of pieces. -/
def totalLen (l : List (List Char)) : Nat := (l.map List.length).sum

/-- Drop pieces from the front of the pending chunk until what remains fits
inside the overlap budget and leaves room for the incoming piece of length
`ulen`; what survives is the overlap carried into the next chunk. -/
def shrink (size ov ulen : Nat) : List (List Char) → List (List Char)
  | [] => []
  | u :: rest =>
    if ov < totalLen (u :: rest)
        ∨ (size < totalLen (u :: rest) + ulen ∧ 0 < totalLen (u :: rest)) then
      shrink size ov ulen rest
    else u :: rest

/-- Greedy merge of consecutive pieces into chunks: a piece that would push
the pending chunk over `chunk_size` first emits that chunk, keeps its overlap
suffix, and continues from there. -/
def mergeGo (size ov : Nat) (current : List (List Char)) :
    List (List Char) → List (List Char)
  | [] => if current.isEmpty then [] else [current.flatten]
  | u :: us =>
    if ¬ current.isEmpty ∧ size < totalLen current + u.length then
      current.flatten :: mergeGo size ov (shrink size ov u.length current ++ [u]) us
    else mergeGo size ov (current ++ [u]) us

/-- Chunker pipeline on character lists: empty text yields no chunks,
otherwise the atomic pieces are merged into overlapping chunks. -/
def splitChunks (seps : List Char) (size ov : Nat) (t : List Char) :
    List (List Char) :=
  if t.isEmpty then [] else mergeGo size ov [] (recSplit size seps t)

/-- Boundary levels of the model: structural (newline) boundaries before word
(space) boundaries. -/
def specSeparators : List Char := ['\n', ' ']

/-- Modelled from the spec: the Chunker's `split_text`, producing the ordered
chunk sequence for one document. -/
def chunk_text (size ov : Nat) (s : String) : List String :=
  (splitChunks specSeparators size ov s.data).map String.mk

/-- Length of the longest overlap between the end of chunk `a` and the start
of the following chunk `b`: the largest `k` with the last `k` characters of
`a` equal to the first `k` of `b`. -/
def maxOverlap (a b : List Char) : Nat :=
  ((List.range (min a.length b.length + 1)).filter fun k =>
    a.drop (a.length - k) = b.take k).foldr max 0

/-- Claimed overlap shape for the refutation: every pair of consecutive
chunks overlaps by exactly `ov` characters. -/
def exactOverlaps (ov : Nat) : List (List Char) → Bool
  | a :: b :: rest => (maxOverlap a b = ov) && exactOverlaps ov (b :: rest)
  | _ => true

/-- Coverage of a text by a chunk sequence: the chunks concatenated in order
reconstruct the text, each consecutive pair sharing an overlap of at most
`ov` characters that ends one chunk and starts the next, with no gap. -/
inductive Covers (ov : Nat) : List Char → List (List Char) → Prop where
  | nil : Covers ov [] []
  | single (c : List Char) : Covers ov c [c]
  | cons (a o t : List Char) (cs : List (List Char)) :
      o.length ≤ ov → cs ≠ [] → Covers ov (o ++ t) cs →
      Covers ov (a ++ o ++ t) ((a ++ o) :: cs)

end Chunker

/-! Helper lemmas shared by several claims. -/

theorem sdata_append (a b : String) : (a ++ b).data = a.data ++ b.data := by
  cases a; cases b; rfl

theorem isPrefixOf_append_self (m b : List Char) : m.isPrefixOf (m ++ b) = true := by
  induction m with
  | nil => simp [List.isPrefixOf]
  | cons c cs ih => simp [List.isPrefixOf, ih]

theorem infixOf_append (a m b : List Char) : infixOf m (a ++ m ++ b) = true := by
  unfold infixOf
  rw [List.any_eq_true]
  refine ⟨a.length, ?_, ?_⟩
  · rw [List.mem_range]
    simp [List.length_append]
    omega
  · rw [List.append_assoc, List.drop_left]
    exact isPrefixOf_append_self m b

theorem infixOf_suffix (a m : List Char) : infixOf m (a ++ m) = true := by
  have h := infixOf_append a m []
  simpa using h

namespace Ingest

theorem upsertOne_keys (c : Collection E) (id : String) (e : Entry E) :
    (upsertOne c id e).map Prod.fst =
      if id ∈ c.map Prod.fst then c.map Prod.fst else c.map Prod.fst ++ [id] := by
  induction c with
  | nil => simp [upsertOne]
  | cons kv rest ih =>
    obtain ⟨k, v⟩ := kv
    by_cases hk : k = id
    · subst hk
      simp [upsertOne]
    · simp only [upsertOne, if_neg hk, List.map_cons, ih]
      by_cases hmem : id ∈ rest.map Prod.fst
      · simp [hmem, Ne.symm hk]
      · simp [hmem, Ne.symm hk]

theorem upsertOne_length_of_mem (c : Collection E) (id : String) (e : Entry E)
    (h : id ∈ c.map Prod.fst) : (upsertOne c id e).length = c.length := by
  induction c with
  | nil => simp at h
  | cons kv rest ih =>
    obtain ⟨k, v⟩ := kv
    by_cases hk : k = id
    · subst hk; simp [upsertOne]
    · simp only [List.map_cons, List.mem_cons] at h
      rcases h with h | h
      · exact absurd h.symm hk
      · simp [upsertOne, if_neg hk, ih h]

theorem upsertBatch_cons (c : Collection E) (r : String × Entry E)
    (rs : List (String × Entry E)) :
    upsertBatch c (r :: rs) = upsertBatch (upsertOne c r.1 r.2) rs := rfl

theorem upsertBatch_keys_mono (rows : List (String × Entry E)) (c : Collection E)
    (k : String) (h : k ∈ c.map Prod.fst) :
    k ∈ (upsertBatch c rows).map Prod.fst := by
  induction rows generalizing c with
  | nil => exact h
  | cons r rs ih =>
    rw [upsertBatch_cons]
    apply ih
    rw [upsertOne_keys]
    by_cases hmem : r.1 ∈ c.map Prod.fst
    · simpa [hmem] using h
    · simp [hmem, h]

theorem upsertBatch_mem_keys (rows : List (String × Entry E)) (c : Collection E)
    (k : String) (h : k ∈ rows.map Prod.fst) :
    k ∈ (upsertBatch c rows).map Prod.fst := by
  induction rows generalizing c with
  | nil => simp at h
  | cons r rs ih =>
    rw [upsertBatch_cons]
    simp only [List.map_cons, List.mem_cons] at h
    rcases h with h | h
    · subst h
      apply upsertBatch_keys_mono
      rw [upsertOne_keys]
      by_cases hmem : r.1 ∈ c.map Prod.fst <;> simp [hmem]
    · exact ih (upsertOne c r.1 r.2) h

theorem upsertBatch_length_of_keys (rows : List (String × Entry E)) (c : Collection E)
    (h : ∀ k ∈ rows.map Prod.fst, k ∈ c.map Prod.fst) :
    (upsertBatch c rows).length = c.length := by
  induction rows generalizing c with
  | nil => rfl
  | cons r rs ih =>
    have hr : r.1 ∈ c.map Prod.fst := h r.1 (by simp)
    have hkeys : (upsertOne c r.1 r.2).map Prod.fst = c.map Prod.fst := by
      rw [upsertOne_keys, if_pos hr]
    have := ih (upsertOne c r.1 r.2) (fun k hk => by
      rw [hkeys]; exact h k (by simp [hk]))
    calc (upsertBatch c (r :: rs)).length
        = (upsertBatch (upsertOne c r.1 r.2) rs).length := rfl
      _ = (upsertOne c r.1 r.2).length := this
      _ = c.length := upsertOne_length_of_mem c r.1 r.2 hr

theorem upsertBatch_twice_length (c : Collection E) (rows : List (String × Entry E)) :
    (upsertBatch (upsertBatch c rows) rows).length = (upsertBatch c rows).length :=
  upsertBatch_length_of_keys rows (upsertBatch c rows)
    (fun k hk => upsertBatch_mem_keys rows c k hk)

end Ingest

/-- Claim C10: calling `ensure_collection` with `reset=true` when the named
collection does not yet exist never raises — the `delete_collection` step does
fail, but the failure is swallowed by `except Exception: pass` and a fresh
empty collection is produced, exactly as a plain (no-reset) call would, and
likewise for the whole `upsert_chunks` ingestion over a missing collection. -/
theorem ensure_collection_reset_on_missing (E : Type) :
    Ingest.delete_collection (E := E) none = .error (.other "Collection does not exist.") ∧
    (∀ reset : Bool, Ingest.ensure_collection (E := E) none reset = []) ∧
    ∀ (md5hex : String → String) (embed : String → E) (texts : List String)
      (metas : List Ingest.ChunkMeta),
      Ingest.upsert_chunks md5hex embed texts metas true none =
        Ingest.upsert_chunks md5hex embed texts metas false none := by
  refine ⟨rfl, ?_, ?_⟩
  · intro reset; cases reset <;> rfl
  · intro md5hex embed texts metas; rfl

/-- Claim C3, counterexample: running `main` with `reset=true` over an empty
source directory against a populated collection leaves the stale entry in
place — the early "no documents" exit happens before any reset, so the
claimed "collection present but with zero entries" is false. -/
theorem main_reset_empty_dir_keeps_stale :
    Ingest.main (fun t => [t]) (fun s => s) (fun _ => ())
        [] true (some [("id0", ⟨"stale", ⟨none, none, none⟩, ()⟩)]) =
      .ok (some [("id0", ⟨"stale", ⟨none, none, none⟩, ()⟩)], .noDocuments) ∧
    ¬ Ingest.storedCount (E := Unit)
        (some [("id0", ⟨"stale", ⟨none, none, none⟩, ()⟩)]) = 0 := by
  exact ⟨rfl, by decide⟩

/-- Claim C3, amended: running ingestion over an empty source directory
performs no index mutation at all, whatever `reset` says — `main` exits with
the "no documents" message before `ensure_collection` ever runs, so a
previously populated collection keeps every stale entry (it is neither
dropped nor emptied). -/
theorem main_empty_dir_no_mutation (E : Type) (split : String → List String)
    (md5hex : String → String) (embed : String → E) (reset : Bool)
    (state : Option (Ingest.Collection E)) :
    Ingest.main split md5hex embed [] reset state = .ok (state, .noDocuments) := rfl

/-- Claim C4: ingesting the same unchanged corpus twice with `reset=false`
stores the same number of chunks after the second run as after the first —
the deterministic ids make the second upsert overwrite the first run's
entries instead of duplicating them. -/
theorem upsert_chunks_idempotent_count (E : Type) (md5hex : String → String)
    (embed : String → E) (texts : List String) (metas : List Ingest.ChunkMeta)
    (state : Option (Ingest.Collection E)) :
    Ingest.storedCount (Ingest.upsert_chunks md5hex embed texts metas false
        (Ingest.upsert_chunks md5hex embed texts metas false state)) =
      Ingest.storedCount (Ingest.upsert_chunks md5hex embed texts metas false state) := by
  unfold Ingest.upsert_chunks Ingest.storedCount
  simp only [Option.getD_some]
  exact Ingest.upsertBatch_twice_length _ _

/-- Claim C5: the id assigned to every chunk is a deterministic function of
the chunk's `source` metadata, its `chunk_index` metadata and its batch
ordinal alone — two batches agreeing pointwise on source and chunk index get
identical id lists, whatever the remaining metadata (and hence two runs over
byte-identical input in the same order assign identical ids). -/
theorem chunkIds_deterministic (md5hex : String → String)
    (ms₁ ms₂ : List Ingest.ChunkMeta)
    (h : List.Forall₂ (fun a b =>
      a.source = b.source ∧ a.chunk = b.chunk) ms₁ ms₂) :
    Ingest.chunkIds md5hex ms₁ = Ingest.chunkIds md5hex ms₂ := by
  unfold Ingest.chunkIds
  suffices H : ∀ idx, Ingest.idsFrom md5hex idx ms₁ = Ingest.idsFrom md5hex idx ms₂
    from H 0
  induction h with
  | nil => intro idx; rfl
  | cons hab htl ih =>
    intro idx
    simp [Ingest.idsFrom, Ingest.rawId, hab.1, hab.2, ih (idx + 1)]

/-- Claim C5, witness: two concrete one-chunk batches differing only in the
`filename` metadata receive the same ids. -/
theorem chunkIds_deterministic_witness :
    Ingest.chunkIds (fun s => s) [⟨some "doc/a.txt", some 0, some "a.txt"⟩] =
      Ingest.chunkIds (fun s => s) [⟨some "doc/a.txt", some 0, some "b.txt"⟩] :=
  chunkIds_deterministic (fun s => s) _ _
    (List.Forall₂.cons ⟨rfl, rfl⟩ List.Forall₂.nil)

/-- Claim C2, counterexample: one corrupt file whose extractor raises makes
`load_documents` raise as well — the text of the readable file scanned before
it is not returned, refuting the claim that the failing file alone is skipped. -/
theorem load_documents_extractor_error_aborts :
    Ingest.load_documents
        [⟨"data/raw/a.txt", "a.txt", ".txt", .ok "hello"⟩,
         ⟨"data/raw/b.pdf", "b.pdf", ".pdf", .error (.other "EOF marker not found")⟩] =
      .error (.other "EOF marker not found") ∧
    ¬ Ingest.load_documents
        [⟨"data/raw/a.txt", "a.txt", ".txt", .ok "hello"⟩,
         ⟨"data/raw/b.pdf", "b.pdf", ".pdf", .error (.other "EOF marker not found")⟩] =
      .ok [⟨"hello", "data/raw/a.txt", "a.txt"⟩] := by
  exact ⟨rfl, by decide⟩

/-- Claim C2, amended: an extractor exception on an individual file is not
swallowed — there is no `try`/`except` in the scan loop, so the first
extractor error (after any number of successfully extracted files)
propagates out of `load_documents` and aborts the whole scan; no other
file's document is returned. -/
theorem load_documents_error_propagates (pre : List Ingest.SrcFile)
    (f : Ingest.SrcFile) (post : List Ingest.SrcFile) (e : PyExc)
    (hf : f.extracted = .error e)
    (hpre : ∀ g ∈ pre, ∃ t, g.extracted = .ok t) :
    Ingest.load_documents (pre ++ f :: post) = .error e := by
  induction pre with
  | nil => simp [Ingest.load_documents, hf]
  | cons g gs ih =>
    obtain ⟨t, ht⟩ := hpre g (List.mem_cons_self g gs)
    have ih2 : Ingest.load_documents (gs ++ f :: post) = .error e :=
      ih fun g2 hg2 => hpre g2 (List.mem_cons_of_mem _ hg2)
    show Ingest.load_documents (g :: (gs ++ f :: post)) = .error e
    simp only [Ingest.load_documents, ht]
    split
    · exact ih2
    · rw [ih2]; rfl

/-- Claim C2, amended, witness: a concrete good file followed by a concrete
corrupt one aborts with the corrupt file's error. -/
theorem load_documents_error_propagates_witness :
    Ingest.load_documents
        [⟨"data/raw/ok.md", "ok.md", ".md", .ok "fine"⟩,
         ⟨"data/raw/bad.docx", "bad.docx", ".docx", .error (.other "bad zip")⟩] =
      .error (.other "bad zip") :=
  load_documents_error_propagates
    [⟨"data/raw/ok.md", "ok.md", ".md", .ok "fine"⟩]
    ⟨"data/raw/bad.docx", "bad.docx", ".docx", .error (.other "bad zip")⟩
    [] (.other "bad zip") rfl
    (by intro g hg
        simp only [List.mem_singleton] at hg
        subst hg
        exact ⟨"fine", rfl⟩)

/-- Claim C1: evaluation of `generate_answer` at the failing input — a chat
service answering 503 on the first attempt (in particular one overloaded on
every attempt).  `rag_service.py` never imports `time`, so the retry branch
raises `NameError` from `time.sleep` after a single chat call: the run makes
exactly one attempt and surfaces the `NameError` instead of retrying three
times and raising the remediation error the claim (and the spec) require. -/
theorem generate_answer_first_503_namerror (D : Type) (reply : RagService.QueryReply D)
    (question errText : String) (responses : Nat → RagService.ChatResult)
    (h0 : responses 0 = .responseError (some 503) errText) :
    RagService.generate_answer (.ok reply) responses question =
      ⟨.error (.nameError RagService.timeNameErr), 1, 1⟩ := by
  unfold RagService.generate_answer RagService.retrieve
  simp [RagService.genLoop, h0]

/-- Claim C1, witness: a concrete service that reports 503 on every attempt
makes `generate_answer` raise the `NameError` after one attempt. -/
theorem generate_answer_first_503_namerror_witness :
    RagService.generate_answer (D := Unit) (.ok ⟨[], [], []⟩)
        (fun _ => .responseError (some 503) "Ollama server busy") "q" =
      ⟨.error (.nameError RagService.timeNameErr), 1, 1⟩ :=
  generate_answer_first_503_namerror Unit ⟨[], [], []⟩ "q" "Ollama server busy"
    (fun _ => .responseError (some 503) "Ollama server busy") rfl

/-- Claim C9: a non-overload service error on the first attempt makes
`generate_answer` perform exactly one chat attempt and raise immediately,
with a message that carries the service-reported status and (stripped,
when non-empty) error text; no retry occurs whatever the service would have
answered later. -/
theorem generate_answer_non_overload (D : Type) (reply : RagService.QueryReply D)
    (question errText : String) (status : Option Int)
    (responses : Nat → RagService.ChatResult)
    (h0 : responses 0 = .responseError status errText)
    (hs : ¬ status = some 503) :
    RagService.generate_answer (.ok reply) responses question =
      ⟨.error (.runtimeError (RagService.genErrMsg status errText)), 1, 1⟩ ∧
    infixOf (RagService.statusRepr status).data
      (RagService.genErrMsg status errText).data = true ∧
    (pyStrip errText = "" ∨
      infixOf (pyStrip errText).data (RagService.genErrMsg status errText).data = true) := by
  refine ⟨?_, ?_, ?_⟩
  · unfold RagService.generate_answer RagService.retrieve
    simp [RagService.genLoop, h0, hs]
  · unfold RagService.genErrMsg
    rw [sdata_append, sdata_append, sdata_append, List.append_assoc]
    exact infixOf_append _ _ _
  · by_cases hstrip : pyStrip errText = ""
    · exact Or.inl hstrip
    · refine Or.inr ?_
      unfold RagService.genErrMsg
      rw [if_neg hstrip]
      rw [sdata_append, sdata_append, sdata_append]
      exact infixOf_suffix _ _

/-- Claim C9, witness: a concrete 404 with error text on the first attempt
raises immediately after one attempt with the status and text in the message. -/
theorem generate_answer_non_overload_witness :
    RagService.generate_answer (D := Unit) (.ok ⟨[], [], []⟩)
        (fun _ => .responseError (some 404) " model not found ") "q" =
      ⟨.error (.runtimeError (RagService.genErrMsg (some 404) " model not found ")), 1, 1⟩ ∧
    infixOf (RagService.statusRepr (some 404)).data
      (RagService.genErrMsg (some 404) " model not found ").data = true ∧
    (pyStrip " model not found " = "" ∨
      infixOf (pyStrip " model not found ").data
        (RagService.genErrMsg (some 404) " model not found ").data = true) :=
  generate_answer_non_overload Unit ⟨[], [], []⟩ "q" " model not found " (some 404)
    (fun _ => .responseError (some 404) " model not found ") rfl (by decide)

/-- Claim C8: an unreadable (corrupted) index surfacing as a `RuntimeError`
whose text contains the header-file marker makes `retrieve` raise the fatal
remediation error, whose message instructs deleting the persisted `chroma_db`
state and re-ingesting with `--reset`; `generate_answer` propagates it after
exactly one retrieval call and zero chat attempts, so the condition is never
auto-retried by any component. -/
theorem retrieve_corrupt_index (D : Type) (m question : String)
    (responses : Nat → RagService.ChatResult)
    (h : infixOf RagService.headerErrMarker.data m.data = true) :
    RagService.retrieve (D := D) (.error (.runtimeError m)) =
      .error (.runtimeError RagService.corruptDbMsg) ∧
    RagService.generate_answer (D := D) (.error (.runtimeError m)) responses question =
      ⟨.error (.runtimeError RagService.corruptDbMsg), 0, 1⟩ ∧
    infixOf "Удалите папку".data RagService.corruptDbMsg.data = true ∧
    infixOf "ingest.py --reset".data RagService.corruptDbMsg.data = true := by
  have h1 : RagService.retrieve (D := D) (.error (.runtimeError m)) =
      .error (.runtimeError RagService.corruptDbMsg) := by
    simp [RagService.retrieve, h]
  refine ⟨h1, ?_, by decide, by decide⟩
  unfold RagService.generate_answer
  rw [h1]

/-- Claim C8, witness: a concrete corrupted-index `RuntimeError` is replaced
by the remediation error and propagates with no chat attempt. -/
theorem retrieve_corrupt_index_witness :
    RagService.retrieve (D := Unit)
        (.error (.runtimeError "Cannot open header file of segment data")) =
      .error (.runtimeError RagService.corruptDbMsg) ∧
    RagService.generate_answer (D := Unit)
        (.error (.runtimeError "Cannot open header file of segment data"))
        (fun _ => .success "a") "q" =
      ⟨.error (.runtimeError RagService.corruptDbMsg), 0, 1⟩ ∧
    infixOf "Удалите папку".data RagService.corruptDbMsg.data = true ∧
    infixOf "ingest.py --reset".data RagService.corruptDbMsg.data = true :=
  retrieve_corrupt_index Unit "Cannot open header file of segment data" "q"
    (fun _ => .success "a") (by decide)

/-- Claim C7, counterexample: for question `Q` and one retrieved passage the
user message places the literal question before the context block, so no
occurrence of the question is preceded by the context — the claimed
"context followed by the question" shape is false. -/
theorem build_prompt_question_precedes_context :
    (RagService.build_prompt (D := Unit) "Q" [("D", ⟨some "S", none, none⟩, ())]).2 =
      "Запрос пользователя: Q\n\nКонтекст из базы знаний:\n[S] D" ∧
    RagService.ctxBeforeQuestion
      (RagService.build_prompt (D := Unit) "Q" [("D", ⟨some "S", none, none⟩, ())]).2
      (RagService.contextOf (D := Unit) [("D", ⟨some "S", none, none⟩, ())]) "Q" = false := by
  exact ⟨by decide, by decide⟩

/-! Character-level lemmas about the dedent and strip pipeline, used to settle
the amended prompt-shape claim. -/

theorem splitNl_ne_nil (s : List Char) : splitNlChars s ≠ [] := by
  induction s with
  | nil => simp [splitNlChars]
  | cons c cs ih =>
    by_cases h : c = '\n'
    · simp [splitNlChars, h]
    · simp only [splitNlChars, if_neg h]
      cases hs : splitNlChars cs with
      | nil => simp
      | cons l ls => simp

theorem splitNl_append_noNl (a b : List Char) (h : ∀ c ∈ a, ¬ c = '\n') :
    splitNlChars (a ++ b) =
      (a ++ (splitNlChars b).headI) :: (splitNlChars b).tail := by
  induction a with
  | nil =>
    cases hb : splitNlChars b with
    | nil => exact absurd hb (splitNl_ne_nil b)
    | cons l ls => simp [hb]
  | cons c cs ih =>
    have hc : ¬ c = '\n' := h c (List.mem_cons_self c cs)
    have ih2 := ih fun x hx => h x (List.mem_cons_of_mem c hx)
    simp only [List.cons_append, splitNlChars, List.append_eq, if_neg hc, ih2]

theorem splitNl_cons_nl (b : List Char) :
    splitNlChars ('\n' :: b) = [] :: splitNlChars b := by
  simp [splitNlChars]

theorem splitNl_joinSep (parts : List String) (tailc : List Char)
    (hp : ∀ p ∈ parts, noNl p = true) (hne : parts ≠ []) :
    splitNlChars ((joinSep "\n\n" parts).data ++ '\n' :: tailc) =
      (List.intersperse [] (parts.map String.data)) ++ splitNlChars tailc := by
  induction parts with
  | nil => exact absurd rfl hne
  | cons p ps ih =>
    cases ps with
    | nil =>
      have hpn : ∀ c ∈ p.data, ¬ c = '\n' := by
        have := hp p (List.mem_cons_self p [])
        unfold noNl at this
        intro c hc
        simpa using List.all_eq_true.mp this c hc
      rw [show joinSep "\n\n" [p] = p from rfl]
      rw [splitNl_append_noNl p.data ('\n' :: tailc) hpn]
      rw [splitNl_cons_nl]
      simp
    | cons p2 ps2 =>
      have hpn : ∀ c ∈ p.data, ¬ c = '\n' := by
        have := hp p (List.mem_cons_self p (p2 :: ps2))
        unfold noNl at this
        intro c hc
        simpa using List.all_eq_true.mp this c hc
      have ih2 := ih (fun x hx => hp x (List.mem_cons_of_mem p hx)) (by simp)
      have hdata : (joinSep "\n\n" (p :: p2 :: ps2)).data =
          p.data ++ '\n' :: '\n' :: (joinSep "\n\n" (p2 :: ps2)).data := by
        rw [show joinSep "\n\n" (p :: p2 :: ps2) =
          p ++ "\n\n" ++ joinSep "\n\n" (p2 :: ps2) from rfl]
        rw [sdata_append, sdata_append]
        simp
      rw [hdata]
      rw [List.append_assoc]
      rw [splitNl_append_noNl p.data _ hpn]
      rw [show ('\n' :: '\n' :: (joinSep "\n\n" (p2 :: ps2)).data) ++ '\n' :: tailc
        = '\n' :: ('\n' :: ((joinSep "\n\n" (p2 :: ps2)).data ++ '\n' :: tailc)) from by simp]
      rw [splitNl_cons_nl, splitNl_cons_nl, ih2]
      simp [List.intersperse]

theorem dropWhile_append_of_ne_nil (p : Char → Bool) (a b : List Char)
    (h : a.dropWhile p ≠ []) : (a ++ b).dropWhile p = a.dropWhile p ++ b := by
  induction a with
  | nil => simp [List.dropWhile] at h
  | cons c cs ih =>
    by_cases hc : p c
    · simp only [List.dropWhile_cons, hc, if_true] at h ⊢
      simpa [hc] using ih h
    · simp [List.dropWhile_cons, hc]

theorem takeWhile_append_of_ne_nil (p : Char → Bool) (a b : List Char)
    (h : a.dropWhile p ≠ []) : (a ++ b).takeWhile p = a.takeWhile p := by
  induction a with
  | nil => simp [List.dropWhile] at h
  | cons c cs ih =>
    by_cases hc : p c
    · simp only [List.dropWhile_cons, hc, if_true] at h
      simp only [List.cons_append, List.takeWhile_cons, hc, if_true]
      rw [ih h]
    · simp [List.takeWhile_cons, hc]

theorem normalizeLine_of_not_all (l : List Char) (h : l.all isIndentChar = false) :
    normalizeLine l = l := by
  unfold normalizeLine
  by_cases he : l.isEmpty
  · simp [he]
  · simp [he, h]

theorem lineIndent_of_head (k v : List Char) (hne : k.dropWhile isIndentChar ≠ [])
    (hhd : ∀ c, (k.dropWhile isIndentChar).head? = some c → ¬ c = '\n') :
    lineIndent (k ++ v) = some (k.takeWhile isIndentChar) := by
  unfold lineIndent
  rw [dropWhile_append_of_ne_nil _ _ _ hne, takeWhile_append_of_ne_nil _ _ _ hne]
  cases hd : k.dropWhile isIndentChar with
  | nil => exact absurd hd hne
  | cons c cs =>
    have := hhd c (by rw [hd]; rfl)
    simp [this]

theorem lcp_self (l : List Char) : lcp l l = l := by
  induction l with
  | nil => rfl
  | cons c cs ih => simp [lcp, ih]

theorem lcp_nil_right (l : List Char) : lcp l [] = [] := by
  cases l <;> rfl

theorem lcp_nil_left (l : List Char) : lcp [] l = [] := by
  cases l <;> rfl

theorem foldl_lcp_nil (is : List (List Char)) : is.foldl lcp [] = [] := by
  induction is with
  | nil => rfl
  | cons i is ih => simp [List.foldl_cons, lcp_nil_left, ih]

theorem removeMargin_append (m v : List Char) : removeMargin m (m ++ v) = v := by
  unfold removeMargin
  rw [isPrefixOf_append_self, if_pos rfl, List.drop_left]

theorem removeMargin_nil_margin (l : List Char) : removeMargin [] l = l := by
  unfold removeMargin
  simp [List.isPrefixOf]

theorem rstrip_append_nl (x : List Char) :
    rstripChars (x ++ ['\n']) = rstripChars x := by
  unfold rstripChars
  simp [List.dropWhile, isPyWs]

theorem rstrip_ne_nil_iff (l : List Char) :
    rstripChars l = [] ↔ l.all isPyWs = true := by
  unfold rstripChars
  rw [List.reverse_eq_nil_iff, List.dropWhile_eq_nil_iff]
  constructor
  · intro h
    rw [List.all_eq_true]
    intro c hc
    exact h c (List.mem_reverse.mpr hc)
  · intro h c hc
    exact List.all_eq_true.mp h c (List.mem_reverse.mp hc)

theorem rstrip_append_left (a b : List Char) (h : ¬ rstripChars b = []) :
    rstripChars (a ++ b) = a ++ rstripChars b := by
  unfold rstripChars at h ⊢
  have hb : b.reverse.dropWhile isPyWs ≠ [] := by
    intro hnil
    rw [hnil] at h
    exact h rfl
  rw [List.reverse_append, dropWhile_append_of_ne_nil _ _ _ hb]
  rw [List.reverse_append, List.reverse_reverse]

theorem lstrip_of_head (a b : List Char) (h : a.dropWhile isPyWs = a)
    (hne : a ≠ []) : lstripChars (a ++ b) = a ++ b := by
  unfold lstripChars
  have : a.dropWhile isPyWs ≠ [] := by rw [h]; exact hne
  rw [dropWhile_append_of_ne_nil _ _ _ this, h]

theorem splitNl_append_nl (a r : List Char) (h : ∀ c ∈ a, ¬ c = '\n') :
    splitNlChars (a ++ '\n' :: r) = a :: splitNlChars r := by
  rw [splitNl_append_noNl a ('\n' :: r) h, splitNl_cons_nl]
  simp

theorem indent_subset_ws (c : Char) (h : isIndentChar c = true) : isPyWs c = true := by
  unfold isIndentChar at h
  unfold isPyWs
  rcases of_decide_eq_true h with h1 | h1 <;> simp [h1]

theorem not_ws_ne_nl (c : Char) (h : isPyWs c = false) : ¬ c = '\n' := by
  intro hc
  subst hc
  simp [isPyWs] at h

theorem not_ws_not_indent (c : Char) (h : isPyWs c = false) : isIndentChar c = false := by
  cases hic : isIndentChar c
  · rfl
  · rw [indent_subset_ws c hic] at h
    exact absurd h (by simp)

theorem dropWhile_all_append (p : Char → Bool) (a b : List Char)
    (ha : a.all p = true) : (a ++ b).dropWhile p = b.dropWhile p := by
  induction a with
  | nil => rfl
  | cons c cs ih =>
    simp only [List.all_cons, Bool.and_eq_true] at ha
    simp [List.dropWhile_cons, ha.1, ih ha.2]

theorem takeWhile_all_append (p : Char → Bool) (a b : List Char)
    (ha : a.all p = true) : (a ++ b).takeWhile p = a ++ b.takeWhile p := by
  induction a with
  | nil => rfl
  | cons c cs ih =>
    simp only [List.all_cons, Bool.and_eq_true] at ha
    simp [List.takeWhile_cons, ha.1, ih ha.2]

theorem lineIndent_sp_head (sp cfd : List Char) (hsp : sp.all isIndentChar = true)
    (c : Char) (rest : List Char) (hcf : cfd = c :: rest) (hc : isPyWs c = false) :
    lineIndent (sp ++ cfd) = some sp := by
  unfold lineIndent
  subst hcf
  have hci : isIndentChar c = false := not_ws_not_indent c hc
  have hcn : ¬ c = '\n' := not_ws_ne_nl c hc
  rw [dropWhile_all_append _ _ _ hsp]
  rw [takeWhile_all_append _ _ _ hsp]
  simp [List.dropWhile_cons, List.takeWhile_cons, hci, hcn]

theorem all_indent_false_of_head (cfd : List Char) (c : Char) (rest : List Char)
    (h : cfd = c :: rest) (hc : isPyWs c = false) :
    cfd.all isIndentChar = false := by
  subst h
  simp [List.all_cons, not_ws_not_indent c hc]

theorem rstrip_ne_nil_of_head (cfd : List Char) (c : Char) (rest : List Char)
    (h : cfd = c :: rest) (hc : isPyWs c = false) : ¬ rstripChars cfd = [] := by
  rw [rstrip_ne_nil_iff]
  subst h
  simp [List.all_cons, hc]

theorem string_eq_of_data (s t : String) (h : s.data = t.data) : s = t := by
  cases s
  cases t
  exact congrArg String.mk h

theorem noNl_chars (s : String) (h : noNl s = true) : ∀ c ∈ s.data, ¬ c = '\n' := by
  unfold noNl at h
  intro c hc
  simpa using List.all_eq_true.mp h c hc

theorem userMsg_single_ctx (q cf : String) (hq : noNl q = true)
    (hcf : noNl cf = true) (c : Char) (rest : List Char)
    (hhd : cf.data = c :: rest) (hc : isPyWs c = false) :
    pyStrip (pyDedent (RagService.userTemplate q cf)) =
      "Запрос пользователя: " ++ q ++ "\n\nКонтекст из базы знаний:\n" ++ pyRstrip cf := by
  have hq2 := noNl_chars q hq
  have hcf2 := noNl_chars cf hcf
  have hT : (RagService.userTemplate q cf).data =
      ("            Запрос пользователя: ".data ++ q.data) ++ '\n' ::
        ("            ".data ++ '\n' ::
          ("            Контекст из базы знаний:".data ++ '\n' ::
            (("            ".data ++ cf.data) ++ '\n' :: "            ".data))) := by
    unfold RagService.userTemplate
    rw [sdata_append, sdata_append, sdata_append, sdata_append]
    rw [show ("\n            \n            Контекст из базы знаний:\n            ").data =
      '\n' :: ("            ".data ++ '\n' ::
        ("            Контекст из базы знаний:".data ++ '\n' :: "            ".data))
      from by decide]
    rw [show ("\n            ").data = '\n' :: "            ".data from by decide]
    simp [List.append_assoc]
  have hlines : splitNlChars (RagService.userTemplate q cf).data =
      [("            Запрос пользователя: ".data ++ q.data),
       "            ".data,
       "            Контекст из базы знаний:".data,
       ("            ".data ++ cf.data),
       "            ".data] := by
    rw [hT]
    rw [splitNl_append_nl _ _ (by
      intro x hx
      rcases List.mem_append.mp hx with h1 | h1
      · exact (by decide : ∀ y ∈ "            Запрос пользователя: ".data, ¬ y = '\n') x h1
      · exact hq2 x h1)]
    rw [splitNl_append_nl "            ".data _ (by decide)]
    rw [splitNl_append_nl "            Контекст из базы знаний:".data _ (by decide)]
    rw [splitNl_append_nl _ _ (by
      intro x hx
      rcases List.mem_append.mp hx with h1 | h1
      · exact (by decide : ∀ y ∈ "            ".data, ¬ y = '\n') x h1
      · exact hcf2 x h1)]
    rw [show splitNlChars "            ".data = ["            ".data] from by decide]
  have hnorm : (splitNlChars (RagService.userTemplate q cf).data).map normalizeLine =
      [("            Запрос пользователя: ".data ++ q.data),
       [],
       "            Контекст из базы знаний:".data,
       ("            ".data ++ cf.data),
       []] := by
    rw [hlines]
    simp only [List.map_cons, List.map_nil]
    rw [normalizeLine_of_not_all ("            Запрос пользователя: ".data ++ q.data) (by
      rw [List.all_append]
      rw [(by decide : "            Запрос пользователя: ".data.all isIndentChar = false)]
      rfl)]
    rw [normalizeLine_of_not_all ("            ".data ++ cf.data) (by
      rw [List.all_append]
      rw [all_indent_false_of_head cf.data c rest hhd hc]
      simp)]
    rw [show normalizeLine "            ".data = [] from by decide]
    rw [show normalizeLine "            Контекст из базы знаний:".data =
      "            Контекст из базы знаний:".data from by decide]
  have h1 : lineIndent ("            Запрос пользователя: ".data ++ q.data) =
      some "            ".data := rfl
  have h4 : lineIndent ("            ".data ++ cf.data) = some "            ".data :=
    lineIndent_sp_head _ _ (by decide) c rest hhd hc
  have h2 : lineIndent ([] : List Char) = none := rfl
  have h3 : lineIndent "            Контекст из базы знаний:".data =
      some "            ".data := rfl
  have hmargin : marginOf ((splitNlChars (RagService.userTemplate q cf).data).map normalizeLine) =
      "            ".data := by
    rw [hnorm]
    unfold marginOf
    simp only [List.filterMap_cons, h1, h2, h3, h4, List.filterMap_nil]
    simp [lcp_self]
  have hremove : ((splitNlChars (RagService.userTemplate q cf).data).map normalizeLine).map
      (removeMargin "            ".data) =
      [("Запрос пользователя: ".data ++ q.data),
       [],
       "Контекст из базы знаний:".data,
       cf.data,
       []] := by
    rw [hnorm]
    simp only [List.map_cons, List.map_nil]
    rw [show ("            Запрос пользователя: ".data ++ q.data) =
      "            ".data ++ ("Запрос пользователя: ".data ++ q.data) from by
        rw [← List.append_assoc]
        rw [show "            ".data ++ "Запрос пользователя: ".data =
          "            Запрос пользователя: ".data from by decide]]
    rw [removeMargin_append, removeMargin_append]
    rw [show removeMargin "            ".data ([] : List Char) = [] from by decide]
    rw [show removeMargin "            ".data "            Контекст из базы знаний:".data =
      "Контекст из базы знаний:".data from by decide]
  have hdedent : dedentChars (RagService.userTemplate q cf).data =
      "Запрос пользователя: ".data ++ q.data ++ '\n' :: '\n' ::
        ("Контекст из базы знаний:".data ++ '\n' :: (cf.data ++ ['\n'])) := by
    show joinNl (((splitNlChars (RagService.userTemplate q cf).data).map normalizeLine).map
      (removeMargin (marginOf
        ((splitNlChars (RagService.userTemplate q cf).data).map normalizeLine)))) = _
    rw [hmargin, hremove]
    simp [joinNl, List.append_assoc]
  have hstrip : stripChars (dedentChars (RagService.userTemplate q cf).data) =
      "Запрос пользователя: ".data ++ q.data ++ '\n' :: '\n' ::
        ("Контекст из базы знаний:".data ++ '\n' :: rstripChars cf.data) := by
    rw [hdedent]
    unfold stripChars
    rw [show ("Запрос пользователя: ".data ++ q.data ++ '\n' :: '\n' ::
        ("Контекст из базы знаний:".data ++ '\n' :: (cf.data ++ ['\n']))) =
      "Запрос пользователя: ".data ++ (q.data ++ '\n' :: '\n' ::
        ("Контекст из базы знаний:".data ++ '\n' :: (cf.data ++ ['\n'])))
      from by simp [List.append_assoc]]
    rw [lstrip_of_head "Запрос пользователя: ".data _ (by decide) (by decide)]
    rw [show ("Запрос пользователя: ".data ++ (q.data ++ '\n' :: '\n' ::
        ("Контекст из базы знаний:".data ++ '\n' :: (cf.data ++ ['\n'])))) =
      ("Запрос пользователя: ".data ++ q.data ++ '\n' :: '\n' ::
        ("Контекст из базы знаний:".data ++ ['\n'])) ++ (cf.data ++ ['\n'])
      from by simp [List.append_assoc]]
    rw [rstrip_append_left _ _ (by
      rw [rstrip_append_nl]
      exact rstrip_ne_nil_of_head cf.data c rest hhd hc)]
    rw [rstrip_append_nl]
    simp [List.append_assoc]
  apply string_eq_of_data
  show stripChars (dedentChars (RagService.userTemplate q cf).data) = _
  rw [hstrip]
  rw [sdata_append, sdata_append, sdata_append]
  rw [show ("\n\nКонтекст из базы знаний:\n").data =
    '\n' :: '\n' :: ("Контекст из базы знаний:".data ++ ['\n']) from by decide]
  show _ = _ ++ _ ++ _ ++ rstripChars cf.data
  simp [List.append_assoc]

theorem lineIndent_head_nonws (pd : List Char) (c : Char) (rest : List Char)
    (h : pd = c :: rest) (hc : isPyWs c = false) : lineIndent pd = some [] := by
  subst h
  have hci := not_ws_not_indent c hc
  have hcn := not_ws_ne_nl c hc
  unfold lineIndent
  simp [List.dropWhile_cons, List.takeWhile_cons, hci, hcn]

theorem map_normalize_intersperse (L : List String)
    (hh : ∀ p ∈ L, ∃ c rest, p.data = c :: rest ∧ isPyWs c = false) :
    (List.intersperse [] (L.map String.data)).map normalizeLine =
      List.intersperse [] (L.map String.data) := by
  induction L with
  | nil => rfl
  | cons p ps ih =>
    obtain ⟨c, rest, hpr, hcw⟩ := hh p (List.mem_cons_self p ps)
    have hnp : normalizeLine p.data = p.data :=
      normalizeLine_of_not_all _ (all_indent_false_of_head _ c rest hpr hcw)
    cases ps with
    | nil => simp [List.intersperse, hnp]
    | cons p2 ps2 =>
      have ih2 := ih (fun x hx => hh x (List.mem_cons_of_mem _ hx))
      simp only [List.map_cons, List.intersperse_cons_cons] at ih2 ⊢
      rw [hnp]
      rw [show normalizeLine ([] : List Char) = [] from rfl]
      cases ps2 with
      | nil => simp_all [List.intersperse]
      | cons p3 ps3 => simp_all [List.intersperse_cons_cons]

theorem filterMap_lineIndent_inter_head (p2 : String) (ps2 : List String)
    (restLs : List (List Char)) (c : Char) (rest : List Char)
    (hp2 : p2.data = c :: rest) (hc : isPyWs c = false) :
    ∃ junk, List.filterMap lineIndent
        (List.intersperse [] ((p2 :: ps2).map String.data) ++ restLs) =
      [] :: junk := by
  have h2 := lineIndent_head_nonws p2.data c rest hp2 hc
  cases ps2 with
  | nil =>
    refine ⟨List.filterMap lineIndent restLs, ?_⟩
    simp [List.intersperse, List.filterMap_cons, h2]
  | cons p3 ps3 =>
    refine ⟨List.filterMap lineIndent
      (([] : List Char) :: List.intersperse [] ((p3 :: ps3).map String.data) ++ restLs), ?_⟩
    simp only [List.map_cons, List.intersperse_cons_cons]
    simp [List.filterMap_cons, h2]

theorem joinNl_cons_of_ne (l : List Char) (ls : List (List Char)) (h : ls ≠ []) :
    joinNl (l :: ls) = l ++ '\n' :: joinNl ls := by
  cases ls with
  | nil => exact absurd rfl h
  | cons l2 ls2 => rfl

theorem joinNl_intersperse_append (L : List String) (hne : L ≠ []) :
    joinNl (List.intersperse [] (L.map String.data) ++ [[]]) =
      (joinSep "\n\n" L).data ++ ['\n'] := by
  induction L with
  | nil => exact absurd rfl hne
  | cons p ps ih =>
    cases ps with
    | nil =>
      show joinNl [p.data, []] = (joinSep "\n\n" [p]).data ++ ['\n']
      simp [joinNl, joinSep]
    | cons p2 ps2 =>
      have ih2 := ih (by simp)
      have hjs : (joinSep "\n\n" (p :: p2 :: ps2)).data =
          p.data ++ '\n' :: '\n' :: (joinSep "\n\n" (p2 :: ps2)).data := by
        rw [show joinSep "\n\n" (p :: p2 :: ps2) =
          p ++ "\n\n" ++ joinSep "\n\n" (p2 :: ps2) from rfl]
        rw [sdata_append, sdata_append]
        simp
      simp only [List.map_cons, List.intersperse_cons_cons]
      rw [List.cons_append, List.cons_append]
      rw [joinNl_cons_of_ne _ _ (by simp)]
      rw [joinNl_cons_of_ne _ _ (by simp)]
      simp only [List.map_cons] at ih2
      rw [ih2, hjs]
      simp [List.append_assoc]

theorem joinSep_all_ws_false (p1 : String) (rest : List String) (c : Char)
    (r2 : List Char) (h : p1.data = c :: r2) (hc : isPyWs c = false) :
    (joinSep "\n\n" (p1 :: rest)).data.all isPyWs = false := by
  cases rest with
  | nil =>
    show p1.data.all isPyWs = false
    rw [h]
    simp [List.all_cons, hc]
  | cons x xs =>
    rw [show joinSep "\n\n" (p1 :: x :: xs) =
      p1 ++ "\n\n" ++ joinSep "\n\n" (x :: xs) from rfl]
    rw [sdata_append, sdata_append, List.all_append, List.all_append]
    rw [h]
    simp [List.all_cons, hc]

theorem userMsg_multi_ctx (q p1 p2 : String) (ps : List String)
    (hq : noNl q = true)
    (hnl : ∀ p ∈ p1 :: p2 :: ps, noNl p = true)
    (hheads : ∀ p ∈ p1 :: p2 :: ps, ∃ c rest, p.data = c :: rest ∧ isPyWs c = false) :
    pyStrip (pyDedent (RagService.userTemplate q (joinSep "\n\n" (p1 :: p2 :: ps)))) =
      "Запрос пользователя: " ++ q ++
        "\n\n            Контекст из базы знаний:\n            " ++
        pyRstrip (joinSep "\n\n" (p1 :: p2 :: ps)) := by
  have hq2 := noNl_chars q hq
  obtain ⟨c1, r1, hp1, hc1⟩ := hheads p1 (by simp)
  obtain ⟨c2, r2, hp2, hc2⟩ := hheads p2 (by simp)
  have hT : (RagService.userTemplate q (joinSep "\n\n" (p1 :: p2 :: ps))).data =
      ("            Запрос пользователя: ".data ++ q.data) ++ '\n' ::
        ("            ".data ++ '\n' ::
          ("            Контекст из базы знаний:".data ++ '\n' ::
            (("            ".data ++ (joinSep "\n\n" (p1 :: p2 :: ps)).data) ++ '\n' ::
              "            ".data))) := by
    unfold RagService.userTemplate
    rw [sdata_append, sdata_append, sdata_append, sdata_append]
    rw [show ("\n            \n            Контекст из базы знаний:\n            ").data =
      '\n' :: ("            ".data ++ '\n' ::
        ("            Контекст из базы знаний:".data ++ '\n' :: "            ".data))
      from by decide]
    rw [show ("\n            ").data = '\n' :: "            ".data from by decide]
    simp [List.append_assoc]
  have hjs2 : (joinSep "\n\n" (p1 :: p2 :: ps)).data =
      p1.data ++ '\n' :: '\n' :: (joinSep "\n\n" (p2 :: ps)).data := by
    rw [show joinSep "\n\n" (p1 :: p2 :: ps) =
      p1 ++ "\n\n" ++ joinSep "\n\n" (p2 :: ps) from rfl]
    rw [sdata_append, sdata_append]
    simp
  have hlines : splitNlChars
      (RagService.userTemplate q (joinSep "\n\n" (p1 :: p2 :: ps))).data =
      ("            Запрос пользователя: ".data ++ q.data) :: "            ".data ::
        "            Контекст из базы знаний:".data ::
        ("            ".data ++ p1.data) :: ([] : List Char) ::
        (List.intersperse [] ((p2 :: ps).map String.data) ++ ["            ".data]) := by
    rw [hT]
    rw [splitNl_append_nl _ _ (by
      intro x hx
      rcases List.mem_append.mp hx with h1 | h1
      · exact (by decide : ∀ y ∈ "            Запрос пользователя: ".data, ¬ y = '\n') x h1
      · exact hq2 x h1)]
    rw [splitNl_append_nl "            ".data _ (by decide)]
    rw [splitNl_append_nl "            Контекст из базы знаний:".data _ (by decide)]
    rw [show ("            ".data ++ (joinSep "\n\n" (p1 :: p2 :: ps)).data) ++ '\n' ::
        "            ".data =
      "            ".data ++ ((joinSep "\n\n" (p1 :: p2 :: ps)).data ++ '\n' ::
        "            ".data) from by simp [List.append_assoc]]
    rw [splitNl_append_noNl "            ".data _ (by decide)]
    rw [splitNl_joinSep (p1 :: p2 :: ps) "            ".data hnl (by simp)]
    rw [show splitNlChars "            ".data = ["            ".data] from by decide]
    simp only [List.map_cons, List.intersperse_cons_cons, List.cons_append]
    simp [List.headI, List.tail]
  have hnorm : (splitNlChars
      (RagService.userTemplate q (joinSep "\n\n" (p1 :: p2 :: ps))).data).map normalizeLine =
      ("            Запрос пользователя: ".data ++ q.data) :: ([] : List Char) ::
        "            Контекст из базы знаний:".data ::
        ("            ".data ++ p1.data) :: ([] : List Char) ::
        (List.intersperse [] ((p2 :: ps).map String.data) ++ [([] : List Char)]) := by
    rw [hlines]
    simp only [List.map_cons, List.map_append]
    rw [normalizeLine_of_not_all ("            Запрос пользователя: ".data ++ q.data) (by
      rw [List.all_append]
      rw [(by decide : "            Запрос пользователя: ".data.all isIndentChar = false)]
      rfl)]
    rw [normalizeLine_of_not_all ("            ".data ++ p1.data) (by
      rw [List.all_append]
      rw [all_indent_false_of_head p1.data c1 r1 hp1 hc1]
      simp)]
    rw [show normalizeLine "            ".data = [] from by decide]
    rw [show normalizeLine "            Контекст из базы знаний:".data =
      "            Контекст из базы знаний:".data from by decide]
    rw [show normalizeLine ([] : List Char) = [] from rfl]
    have hmni := map_normalize_intersperse (p2 :: ps)
      (fun x hx => hheads x (List.mem_cons_of_mem _ hx))
    simp only [List.map_cons] at hmni
    rw [hmni]
    simp
  have h1 : lineIndent ("            Запрос пользователя: ".data ++ q.data) =
      some "            ".data := rfl
  have h2 : lineIndent ([] : List Char) = none := rfl
  have h3 : lineIndent "            Контекст из базы знаний:".data =
      some "            ".data := rfl
  have h4 : lineIndent ("            ".data ++ p1.data) = some "            ".data :=
    lineIndent_sp_head _ _ (by decide) c1 r1 hp1 hc1
  obtain ⟨junk, hjunk⟩ :=
    filterMap_lineIndent_inter_head p2 ps [([] : List Char)] c2 r2 hp2 hc2
  have hmargin : marginOf ((splitNlChars
      (RagService.userTemplate q (joinSep "\n\n" (p1 :: p2 :: ps))).data).map normalizeLine) =
      [] := by
    rw [hnorm]
    unfold marginOf
    simp only [List.filterMap_cons, h1, h2, h3, h4, hjunk]
    simp [List.foldl_cons, lcp_self, lcp_nil_right, foldl_lcp_nil]
  have hnomargin : ∀ l : List Char, removeMargin [] l = l := removeMargin_nil_margin
  have hdedent : dedentChars
      (RagService.userTemplate q (joinSep "\n\n" (p1 :: p2 :: ps))).data =
      ("            Запрос пользователя: ".data ++ q.data) ++ '\n' :: '\n' ::
        ("            Контекст из базы знаний:".data ++ '\n' ::
          ("            ".data ++ ((joinSep "\n\n" (p1 :: p2 :: ps)).data ++ ['\n']))) := by
    show joinNl (((splitNlChars
        (RagService.userTemplate q (joinSep "\n\n" (p1 :: p2 :: ps))).data).map
          normalizeLine).map
      (removeMargin (marginOf ((splitNlChars
        (RagService.userTemplate q (joinSep "\n\n" (p1 :: p2 :: ps))).data).map
          normalizeLine)))) = _
    rw [hmargin]
    rw [show removeMargin ([] : List Char) = id from funext removeMargin_nil_margin]
    rw [List.map_id]
    rw [hnorm]
    rw [joinNl_cons_of_ne _ _ (by simp)]
    rw [joinNl_cons_of_ne _ _ (by simp)]
    rw [joinNl_cons_of_ne _ _ (by simp)]
    rw [joinNl_cons_of_ne _ _ (by simp)]
    rw [joinNl_cons_of_ne _ _ (by simp)]
    rw [joinNl_intersperse_append (p2 :: ps) (by simp)]
    rw [hjs2]
    simp [List.append_assoc]
  have hstrip : stripChars (dedentChars
      (RagService.userTemplate q (joinSep "\n\n" (p1 :: p2 :: ps))).data) =
      "Запрос пользователя: ".data ++ q.data ++ '\n' :: '\n' ::
        ("            Контекст из базы знаний:".data ++ '\n' ::
          ("            ".data ++
            rstripChars (joinSep "\n\n" (p1 :: p2 :: ps)).data)) := by
    rw [hdedent]
    unfold stripChars
    rw [show (("            Запрос пользователя: ".data ++ q.data) ++ '\n' :: '\n' ::
        ("            Контекст из базы знаний:".data ++ '\n' ::
          ("            ".data ++ ((joinSep "\n\n" (p1 :: p2 :: ps)).data ++ ['\n'])))) =
      "            ".data ++ ("Запрос пользователя: ".data ++ (q.data ++ '\n' :: '\n' ::
        ("            Контекст из базы знаний:".data ++ '\n' ::
          ("            ".data ++ ((joinSep "\n\n" (p1 :: p2 :: ps)).data ++ ['\n'])))))
      from by
        rw [show "            Запрос пользователя: ".data =
          "            ".data ++ "Запрос пользователя: ".data from by decide]
        simp [List.append_assoc]]
    unfold lstripChars
    rw [dropWhile_all_append isPyWs "            ".data _ (by decide)]
    rw [show ("Запрос пользователя: ".data ++ (q.data ++ '\n' :: '\n' ::
        ("            Контекст из базы знаний:".data ++ '\n' ::
          ("            ".data ++ ((joinSep "\n\n" (p1 :: p2 :: ps)).data ++ ['\n']))))).dropWhile isPyWs =
      "Запрос пользователя: ".data ++ (q.data ++ '\n' :: '\n' ::
        ("            Контекст из базы знаний:".data ++ '\n' ::
          ("            ".data ++ ((joinSep "\n\n" (p1 :: p2 :: ps)).data ++ ['\n']))))
      from by
        rw [dropWhile_append_of_ne_nil _ _ _ (by decide)]
        rw [show "Запрос пользователя: ".data.dropWhile isPyWs =
          "Запрос пользователя: ".data from by decide]]
    rw [show ("Запрос пользователя: ".data ++ (q.data ++ '\n' :: '\n' ::
        ("            Контекст из базы знаний:".data ++ '\n' ::
          ("            ".data ++ ((joinSep "\n\n" (p1 :: p2 :: ps)).data ++ ['\n']))))) =
      ("Запрос пользователя: ".data ++ q.data ++ '\n' :: '\n' ::
        ("            Контекст из базы знаний:".data ++ '\n' :: "            ".data))
        ++ ((joinSep "\n\n" (p1 :: p2 :: ps)).data ++ ['\n'])
      from by simp [List.append_assoc]]
    rw [rstrip_append_left _ _ (by
      rw [rstrip_append_nl]
      rw [rstrip_ne_nil_iff]
      rw [joinSep_all_ws_false p1 (p2 :: ps) c1 r1 hp1 hc1]
      simp)]
    rw [rstrip_append_nl]
    simp [List.append_assoc]
  apply string_eq_of_data
  show stripChars (dedentChars
    (RagService.userTemplate q (joinSep "\n\n" (p1 :: p2 :: ps))).data) = _
  rw [hstrip]
  rw [sdata_append, sdata_append, sdata_append]
  rw [show ("\n\n            Контекст из базы знаний:\n            ").data =
    '\n' :: '\n' :: ("            Контекст из базы знаний:".data ++ '\n' ::
      "            ".data) from by decide]
  rw [show (pyRstrip (joinSep "\n\n" (p1 :: p2 :: ps))).data =
    rstripChars (joinSep "\n\n" (p1 :: p2 :: ps)).data from rfl]
  simp [List.append_assoc]

theorem contextPart_data (D : Type) (p : RagService.Passage D) :
    (RagService.contextPart p).data =
      '[' :: ((p.2.1.source.getD "unknown").data ++ ("] ".data ++ p.1.data)) := by
  unfold RagService.contextPart
  rw [sdata_append, sdata_append]
  simp [List.append_assoc]

theorem contextPart_noNl (D : Type) (p : RagService.Passage D)
    (hdoc : noNl p.1 = true) (hsrc : noNl (p.2.1.source.getD "unknown") = true) :
    noNl (RagService.contextPart p) = true := by
  unfold noNl at hdoc hsrc ⊢
  rw [contextPart_data, List.all_cons, List.all_append, List.all_append]
  rw [hdoc, hsrc]
  rw [show ("] ".data.all fun c => ¬ (c = '\n')) = true from by decide]
  decide

theorem contextOf_cons_ne_empty (D : Type) (p : RagService.Passage D)
    (rest : List (RagService.Passage D)) :
    ¬ RagService.contextOf (p :: rest) = "" := by
  intro h
  have hd := congrArg String.data h
  cases rest with
  | nil =>
    rw [show RagService.contextOf [p] = RagService.contextPart p from rfl] at hd
    rw [contextPart_data] at hd
    simp at hd
  | cons p2 rest2 =>
    rw [show RagService.contextOf (p :: p2 :: rest2) =
      RagService.contextPart p ++ "\n\n" ++
        joinSep "\n\n" ((p2 :: rest2).map RagService.contextPart) from rfl] at hd
    rw [sdata_append, sdata_append, contextPart_data] at hd
    simp at hd


namespace Chunker

theorem splitKeepChar_flatten (sep : Char) (t : List Char) :
    (splitKeepChar sep t).flatten = t := by
  induction t with
  | nil => rfl
  | cons c cs ih =>
    by_cases hc : c = sep
    · simp [splitKeepChar, hc, ih]
    · simp only [splitKeepChar, if_neg hc]
      cases hs : splitKeepChar sep cs with
      | nil =>
        rw [hs] at ih
        simp at ih
        simp [List.flatten, ← ih]
      | cons p ps =>
        rw [hs] at ih
        simp only [List.flatten_cons] at ih ⊢
        simp [← ih, List.append_assoc]

theorem splitKeepChar_ne_nil (sep : Char) (t : List Char) :
    ∀ piece ∈ splitKeepChar sep t, piece ≠ [] := by
  induction t with
  | nil => intro piece h; simp [splitKeepChar] at h
  | cons c cs ih =>
    intro piece h
    by_cases hc : c = sep
    · simp only [splitKeepChar, if_pos hc, List.mem_cons] at h
      rcases h with h | h
      · subst h; simp
      · exact ih piece h
    · simp only [splitKeepChar, if_neg hc] at h
      cases hs : splitKeepChar sep cs with
      | nil => rw [hs] at h; simp at h; subst h; simp
      | cons p ps =>
        rw [hs] at h
        simp only [List.mem_cons] at h
        rcases h with h | h
        · subst h; simp
        · exact ih piece (by rw [hs]; exact List.mem_cons_of_mem p h)

theorem recSplit_flatten (size : Nat) (seps : List Char) (t : List Char) :
    (recSplit size seps t).flatten = t := by
  induction seps generalizing t with
  | nil => simp [recSplit]
  | cons s rest ih =>
    by_cases hlen : t.length ≤ size
    · simp [recSplit, hlen]
    · simp only [recSplit, if_neg hlen]
      have hflat : ∀ pieces : List (List Char),
          (pieces.flatMap fun piece =>
            if piece.length ≤ size then [piece] else recSplit size rest piece).flatten =
          pieces.flatten := by
        intro pieces
        induction pieces with
        | nil => rfl
        | cons p ps ihp =>
          simp only [List.flatMap_cons, List.flatten_append, ihp, List.flatten_cons]
          by_cases hp : p.length ≤ size
          · simp [hp]
          · simp [hp, ih p]
      rw [hflat, splitKeepChar_flatten]

theorem recSplit_ne_nil (size : Nat) (seps : List Char) (t : List Char) (ht : t ≠ []) :
    ∀ u ∈ recSplit size seps t, u ≠ [] := by
  induction seps generalizing t with
  | nil =>
    intro u hu
    simp only [recSplit, List.mem_singleton] at hu
    subst hu; exact ht
  | cons s rest ih =>
    intro u hu
    by_cases hlen : t.length ≤ size
    · simp only [recSplit, if_pos hlen, List.mem_singleton] at hu
      subst hu; exact ht
    · simp only [recSplit, if_neg hlen, List.mem_flatMap] at hu
      obtain ⟨piece, hpmem, hu2⟩ := hu
      have hpne : piece ≠ [] := splitKeepChar_ne_nil s t piece hpmem
      by_cases hp : piece.length ≤ size
      · simp only [if_pos hp, List.mem_singleton] at hu2
        subst hu2; exact hpne
      · simp only [if_neg hp] at hu2
        exact ih piece hpne u hu2

theorem totalLen_append (a b : List (List Char)) :
    totalLen (a ++ b) = totalLen a + totalLen b := by
  unfold totalLen
  rw [List.map_append, List.sum_append]

theorem totalLen_flatten (l : List (List Char)) : l.flatten.length = totalLen l := by
  unfold totalLen
  rw [List.length_flatten]

theorem totalLen_eq_zero (l : List (List Char)) (hne : ∀ x ∈ l, x ≠ [])
    (h : totalLen l = 0) : l = [] := by
  cases l with
  | nil => rfl
  | cons x xs =>
    exfalso
    unfold totalLen at h
    simp only [List.map_cons, List.sum_cons, Nat.add_eq_zero] at h
    have := hne x (List.mem_cons_self x xs)
    cases hx : x with
    | nil => exact this hx
    | cons c cs => rw [hx] at h; simp at h

theorem shrink_suffix (size ov ulen : Nat) (l : List (List Char)) :
    shrink size ov ulen l <:+ l := by
  induction l with
  | nil => exact List.suffix_refl []
  | cons u rest ih =>
    unfold shrink
    split
    · exact ih.trans (List.suffix_cons u rest)
    · exact List.suffix_refl _

theorem shrink_total_le (size ov ulen : Nat) (l : List (List Char)) :
    totalLen (shrink size ov ulen l) ≤ ov := by
  induction l with
  | nil =>
    show totalLen [] ≤ ov
    simp [totalLen]
  | cons u rest ih =>
    unfold shrink
    split
    · exact ih
    · rename_i hcond
      push_neg at hcond
      exact hcond.1

theorem shrink_fits (size ov ulen : Nat) (l : List (List Char)) :
    totalLen (shrink size ov ulen l) + ulen ≤ size ∨
      totalLen (shrink size ov ulen l) = 0 := by
  induction l with
  | nil =>
    right
    show totalLen [] = 0
    simp [totalLen]
  | cons u rest ih =>
    unfold shrink
    split
    · exact ih
    · rename_i hcond
      push_neg at hcond
      rcases Nat.lt_or_ge size (totalLen (u :: rest) + ulen) with hb | hb
      · right
        have := hcond.2 hb
        omega
      · exact Or.inl hb

theorem shrink_sub (size ov ulen : Nat) (l : List (List Char)) :
    ∀ x ∈ shrink size ov ulen l, x ∈ l :=
  fun _ hx => (shrink_suffix size ov ulen l).subset hx

theorem mergeGo_ne_nil (size ov : Nat) (units : List (List Char)) :
    ∀ current, current ≠ [] → mergeGo size ov current units ≠ [] := by
  induction units with
  | nil =>
    intro current hc
    unfold mergeGo
    rw [if_neg (by simpa using hc)]
    simp
  | cons u us ih =>
    intro current hc
    unfold mergeGo
    split
    · simp
    · exact ih (current ++ [u]) (by simp)

theorem mergeGo_covers (size ov : Nat) (units : List (List Char)) :
    ∀ current, current ≠ [] →
      Covers ov (current.flatten ++ units.flatten) (mergeGo size ov current units) := by
  induction units with
  | nil =>
    intro current hc
    unfold mergeGo
    rw [if_neg (by simpa using hc)]
    simpa using @Covers.single ov current.flatten
  | cons u us ih =>
    intro current hc
    unfold mergeGo
    split
    · rename_i hcond
      obtain ⟨a, ha⟩ := shrink_suffix size ov u.length current
      have hcover := ih (shrink size ov u.length current ++ [u]) (by simp)
      have hne := mergeGo_ne_nil size ov us (shrink size ov u.length current ++ [u]) (by simp)
      have hov : (shrink size ov u.length current).flatten.length ≤ ov := by
        rw [totalLen_flatten]
        exact shrink_total_le size ov u.length current
      have hcover2 : Covers ov
          ((shrink size ov u.length current).flatten ++ (u ++ us.flatten))
          (mergeGo size ov (shrink size ov u.length current ++ [u]) us) := by
        have hfl : (shrink size ov u.length current ++ [u]).flatten ++ us.flatten =
            (shrink size ov u.length current).flatten ++ (u ++ us.flatten) := by
          simp [List.flatten_append, List.append_assoc]
        rw [← hfl]
        exact hcover
      have hstep := Covers.cons a.flatten (shrink size ov u.length current).flatten
        (u ++ us.flatten) (mergeGo size ov (shrink size ov u.length current ++ [u]) us)
        hov hne hcover2
      have hcur : current.flatten = a.flatten ++ (shrink size ov u.length current).flatten := by
        rw [← List.flatten_append, ha]
      rw [show current.flatten ++ (u :: us).flatten =
        a.flatten ++ (shrink size ov u.length current).flatten ++ (u ++ us.flatten) from by
          rw [hcur]
          simp [List.append_assoc]]
      rw [hcur]
      exact hstep
    · rename_i hcond
      have := ih (current ++ [u]) (by simp)
      rw [show current.flatten ++ (u :: us).flatten =
        (current ++ [u]).flatten ++ us.flatten from by
          simp [List.flatten_append, List.append_assoc]]
      exact this

theorem mergeGo_size (size ov : Nat) (U : List (List Char))
    (hUne : ∀ x ∈ U, x ≠ []) :
    ∀ (units current : List (List Char)),
    (∀ x ∈ units, x ∈ U) → (∀ x ∈ current, x ∈ U) →
    (totalLen current ≤ size ∨ ∃ u0, current = [u0]) →
    ∀ c ∈ mergeGo size ov current units,
      c.length ≤ size ∨ ∃ u0 ∈ U, c = u0 ∧ size < c.length := by
  intro units
  induction units with
  | nil =>
    intro current hcu hcc hinv c hc
    unfold mergeGo at hc
    by_cases he : current.isEmpty
    · rw [if_pos he] at hc
      simp at hc
    · rw [if_neg he] at hc
      simp only [List.mem_singleton] at hc
      subst hc
      rcases hinv with hle | ⟨u0, hu0⟩
      · left
        rw [totalLen_flatten]
        exact hle
      · subst hu0
        rw [show ([u0] : List (List Char)).flatten = u0 from by simp]
        by_cases hlen : u0.length ≤ size
        · exact Or.inl hlen
        · exact Or.inr ⟨u0, hcc u0 (List.mem_singleton.mpr rfl), rfl, by omega⟩
  | cons u us ih =>
    intro current hcu hcc hinv c hc
    unfold mergeGo at hc
    split at hc
    · rename_i hcond
      rcases List.mem_cons.mp hc with hcflat | hcrec
      · subst hcflat
        rcases hinv with hle | ⟨u0, hu0⟩
        · left
          rw [totalLen_flatten]
          exact hle
        · subst hu0
          rw [show ([u0] : List (List Char)).flatten = u0 from by simp]
          by_cases hlen : u0.length ≤ size
          · exact Or.inl hlen
          · exact Or.inr ⟨u0, hcc u0 (List.mem_singleton.mpr rfl), rfl, by omega⟩
      · refine ih (shrink size ov u.length current ++ [u]) ?_ ?_ ?_ c hcrec
        · exact fun x hx => hcu x (List.mem_cons_of_mem u hx)
        · intro x hx
          rcases List.mem_append.mp hx with hx | hx
          · exact hcc x (shrink_sub size ov u.length current x hx)
          · rw [List.mem_singleton.mp hx]
            exact hcu u (List.mem_cons_self u us)
        · rcases shrink_fits size ov u.length current with hfit | hzero
          · left
            rw [totalLen_append]
            rw [show totalLen [u] = u.length from by simp [totalLen]]
            exact hfit
          · right
            refine ⟨u, ?_⟩
            rw [totalLen_eq_zero (shrink size ov u.length current)
              (fun x hx => hUne x (hcc x (shrink_sub size ov u.length current x hx)))
              hzero]
            rfl
    · rename_i hcond
      refine ih (current ++ [u]) ?_ ?_ ?_ c hc
      · exact fun x hx => hcu x (List.mem_cons_of_mem u hx)
      · intro x hx
        rcases List.mem_append.mp hx with hx | hx
        · exact hcc x hx
        · rw [List.mem_singleton.mp hx]
          exact hcu u (List.mem_cons_self u us)
      · by_cases he : current.isEmpty
        · right
          refine ⟨u, ?_⟩
          rw [List.isEmpty_iff.mp he]
          rfl
        · left
          have hle : totalLen current + u.length ≤ size := by
            by_contra hlt
            exact hcond ⟨by simpa using he, by omega⟩
          rw [totalLen_append]
          rw [show totalLen [u] = u.length from by simp [totalLen]]
          exact hle

theorem splitKeepChar_ne_nil_list (sep : Char) (t : List Char) (ht : t ≠ []) :
    splitKeepChar sep t ≠ [] := by
  cases t with
  | nil => exact absurd rfl ht
  | cons c cs =>
    unfold splitKeepChar
    split
    · simp
    · cases splitKeepChar sep cs <;> simp

theorem recSplit_ne_nil_list (size : Nat) (seps : List Char) (t : List Char)
    (ht : t ≠ []) : recSplit size seps t ≠ [] := by
  induction seps generalizing t with
  | nil => simp [recSplit]
  | cons s rest ih =>
    by_cases hlen : t.length ≤ size
    · simp [recSplit, hlen]
    · simp only [recSplit, if_neg hlen]
      cases hp : splitKeepChar s t with
      | nil => exact absurd hp (splitKeepChar_ne_nil_list s t ht)
      | cons p ps =>
        have hpne : p ≠ [] := splitKeepChar_ne_nil s t p (by rw [hp]; simp)
        simp only [List.flatMap_cons]
        intro hcontra
        rcases List.append_eq_nil.mp hcontra with ⟨h1, _⟩
        by_cases hps : p.length ≤ size
        · rw [if_pos hps] at h1
          simp at h1
        · rw [if_neg hps] at h1
          exact ih p hpne h1

theorem mergeGo_nil_start (size ov : Nat) (u : List Char) (us : List (List Char)) :
    mergeGo size ov [] (u :: us) = mergeGo size ov [u] us := by
  conv_lhs => rw [mergeGo]
  rw [if_neg (by simp)]
  rfl

theorem splitChunks_covers (seps : List Char) (size ov : Nat) (t : List Char)
    (ht : ¬ t = []) : Covers ov t (splitChunks seps size ov t) := by
  unfold splitChunks
  rw [if_neg (by simpa using ht)]
  cases hu : recSplit size seps t with
  | nil => exact absurd hu (recSplit_ne_nil_list size seps t ht)
  | cons u us =>
    rw [mergeGo_nil_start]
    have := mergeGo_covers size ov us [u] (by simp)
    have hfl : ([u] : List (List Char)).flatten ++ us.flatten = t := by
      have h2 := recSplit_flatten size seps t
      rw [hu] at h2
      simpa using h2
    rw [← hfl]
    exact this

theorem splitChunks_size (seps : List Char) (size ov : Nat) (t : List Char)
    (ht : ¬ t = []) :
    ∀ c ∈ splitChunks seps size ov t,
      c.length ≤ size ∨ (size < c.length ∧ c ∈ recSplit size seps t) := by
  intro c hc
  unfold splitChunks at hc
  rw [if_neg (by simpa using ht)] at hc
  rcases hu : recSplit size seps t with _ | ⟨u, us⟩
  · exact absurd hu (recSplit_ne_nil_list size seps t ht)
  · rw [hu, mergeGo_nil_start] at hc
    have := mergeGo_size size ov (recSplit size seps t)
      (recSplit_ne_nil size seps t ht) us [u]
      (by intro x hx; rw [hu]; exact List.mem_cons_of_mem u hx)
      (by intro x hx; rw [hu, List.mem_singleton.mp hx]; exact List.mem_cons_self u us)
      (Or.inr ⟨u, rfl⟩) c hc
    rcases this with hle | ⟨u0, hu0, hcu0, hlt⟩
    · exact Or.inl hle
    · exact Or.inr ⟨hlt, by rw [hcu0, ← hu]; exact hu0⟩

end Chunker

/-- Claim C6, counterexample: with `chunk_size = 9` and `chunk_overlap = 2`
the document `aaaa bbbb cccc dddd` is chunked into three chunks whose
interior boundary — between the first and the second chunk, nowhere near the
final chunk that the claim exempts — has an overlap of zero characters, not
exactly `chunk_overlap`: the merge step carries over only whole word-pieces
that fit the overlap budget, and here none fits.  `List.dropLast` removes the
final chunk, so `exactOverlaps` below inspects only the non-exempt
boundaries. -/
theorem chunk_text_interior_overlap_not_exact :
    Chunker.chunk_text 9 2 "aaaa bbbb cccc dddd" = ["aaaa ", "bbbb ", "cccc dddd"] ∧
    "aaaa ".data ++ "bbbb ".data ++ "cccc dddd".data = "aaaa bbbb cccc dddd".data ∧
    Chunker.maxOverlap "aaaa ".data "bbbb ".data = 0 ∧
    Chunker.exactOverlaps 2
      ((Chunker.splitChunks Chunker.specSeparators 9 2
        "aaaa bbbb cccc dddd".data).dropLast) = false :=
  ⟨by decide, by decide, by decide, by decide⟩

/-- Claim C6, amended: for every non-empty document, concatenating the
Chunker's output in chunk order covers the document's text exactly, with the
overlap repeated at each chunk boundary being a run of whole splitter pieces
of total length at most `chunk_overlap` (possibly shorter, possibly zero),
and no chunk's length exceeds `chunk_size` unless the chunk is a single
atomic splitter piece that boundary-aware splitting could not shorten. -/
theorem chunk_text_cover_structure (size ov : Nat) (s : String)
    (hs : ¬ s.data = []) :
    Chunker.Covers ov s.data ((Chunker.chunk_text size ov s).map String.data) ∧
    ∀ c ∈ (Chunker.chunk_text size ov s).map String.data,
      c.length ≤ size ∨
        (size < c.length ∧ c ∈ Chunker.recSplit size Chunker.specSeparators s.data) := by
  have hmap : (Chunker.chunk_text size ov s).map String.data =
      Chunker.splitChunks Chunker.specSeparators size ov s.data := by
    unfold Chunker.chunk_text
    rw [List.map_map]
    exact List.map_id _
  rw [hmap]
  exact ⟨Chunker.splitChunks_covers _ size ov s.data hs,
    Chunker.splitChunks_size _ size ov s.data hs⟩

/-- Claim C6, amended, witness: a concrete two-word document with
`chunk_size = 5`, `chunk_overlap = 2` satisfies the cover-and-size structure. -/
theorem chunk_text_cover_structure_witness :
    Chunker.Covers 2 "ab cd".data ((Chunker.chunk_text 5 2 "ab cd").map String.data) ∧
    ∀ c ∈ (Chunker.chunk_text 5 2 "ab cd").map String.data,
      c.length ≤ 5 ∨
        (5 < c.length ∧ c ∈ Chunker.recSplit 5 Chunker.specSeparators "ab cd".data) :=
  chunk_text_cover_structure 5 2 "ab cd" (by decide)

/-! Visible-character invariance of the prompt pipeline: `textwrap.dedent`
(whitespace-only-line normalisation and margin removal) and `str.strip` only
ever delete space, tab and newline characters, so the sequence of
non-whitespace characters of the user message is exactly that of the
interpolated template.  This settles the prompt-shape claim for every
passage list, including passages whose text spans several lines, where the
interpolated lines defeat the dedent margin and the whitespace layout
depends on the passages. -/

theorem filter_dropWhile_ws (l : List Char) :
    (l.dropWhile isPyWs).filter keepVisible = l.filter keepVisible := by
  induction l with
  | nil => rfl
  | cons c cs ih =>
    by_cases hc : isPyWs c
    · have hk : keepVisible c = false := by simp [keepVisible, hc]
      simp [List.dropWhile_cons, hc, List.filter_cons, hk, ih]
    · simp [List.dropWhile_cons, hc]

theorem filter_reverse_comm (p : Char → Bool) (l : List Char) :
    l.reverse.filter p = (l.filter p).reverse := by
  induction l with
  | nil => rfl
  | cons c cs ih =>
    rw [List.reverse_cons, List.filter_append, ih, List.filter_cons]
    by_cases hc : p c
    · simp [hc]
    · simp [hc]

theorem filter_rstrip (l : List Char) :
    (rstripChars l).filter keepVisible = l.filter keepVisible := by
  unfold rstripChars
  rw [filter_reverse_comm, filter_dropWhile_ws, filter_reverse_comm,
    List.reverse_reverse]

theorem filter_strip (l : List Char) :
    (stripChars l).filter keepVisible = l.filter keepVisible := by
  unfold stripChars lstripChars
  rw [filter_rstrip, filter_dropWhile_ws]

theorem joinNl_filter (L : List (List Char)) :
    (joinNl L).filter keepVisible = (L.map (List.filter keepVisible)).flatten := by
  induction L with
  | nil => rfl
  | cons l ls ih =>
    cases ls with
    | nil => simp [joinNl]
    | cons l2 ls2 =>
      rw [joinNl_cons_of_ne _ _ (by simp)]
      rw [List.filter_append]
      rw [show ('\n' :: joinNl (l2 :: ls2)).filter keepVisible =
        (joinNl (l2 :: ls2)).filter keepVisible from by
          rw [List.filter_cons]
          simp [keepVisible, isPyWs]]
      rw [ih]
      simp

theorem joinNl_splitNl (s : List Char) : joinNl (splitNlChars s) = s := by
  induction s with
  | nil => rfl
  | cons c cs ih =>
    by_cases hc : c = '\n'
    · subst hc
      rw [splitNl_cons_nl, joinNl_cons_of_ne _ _ (splitNl_ne_nil cs), ih]
      rfl
    · simp only [splitNlChars, if_neg hc]
      cases hs : splitNlChars cs with
      | nil => exact absurd hs (splitNl_ne_nil cs)
      | cons l ls =>
        rw [hs] at ih
        cases ls with
        | nil =>
          show c :: l = c :: cs
          rw [show joinNl [l] = l from rfl] at ih
          rw [ih]
        | cons l2 ls2 =>
          rw [joinNl_cons_of_ne _ _ (by simp)]
          rw [joinNl_cons_of_ne _ _ (by simp)] at ih
          rw [List.cons_append, ih]

theorem filter_splitNl (s : List Char) :
    s.filter keepVisible = ((splitNlChars s).map (List.filter keepVisible)).flatten := by
  conv_lhs => rw [← joinNl_splitNl s]
  exact joinNl_filter (splitNlChars s)

theorem filter_of_all_indent (l : List Char) (h : l.all isIndentChar = true) :
    l.filter keepVisible = [] := by
  induction l with
  | nil => rfl
  | cons c cs ih =>
    simp only [List.all_cons, Bool.and_eq_true] at h
    have hk : keepVisible c = false := by
      simp [keepVisible, indent_subset_ws c h.1]
    simp [List.filter_cons, hk, ih h.2]

theorem filter_normalizeLine (l : List Char) :
    (normalizeLine l).filter keepVisible = l.filter keepVisible := by
  unfold normalizeLine
  by_cases he : l.isEmpty
  · simp [he]
  · rw [if_neg he]
    by_cases ha : l.all isIndentChar
    · rw [if_pos ha, filter_of_all_indent l ha]
      rfl
    · rw [if_neg ha]

theorem takeWhile_all_self (p : Char → Bool) (l : List Char) :
    (l.takeWhile p).all p = true := by
  induction l with
  | nil => rfl
  | cons c cs ih =>
    rw [List.takeWhile_cons]
    by_cases hc : p c
    · simp [hc, ih]
    · simp [hc]

theorem lcp_all_left (a b : List Char) (p : Char → Bool) (h : a.all p = true) :
    (lcp a b).all p = true := by
  induction a generalizing b with
  | nil => rw [lcp_nil_left]; rfl
  | cons x xs ih =>
    cases b with
    | nil => rw [lcp_nil_right]; rfl
    | cons y ys =>
      simp only [List.all_cons, Bool.and_eq_true] at h
      unfold lcp
      by_cases hxy : x = y
      · subst hxy
        simp [h.1, ih ys h.2]
      · simp [hxy]

theorem marginOf_all_indent (L : List (List Char)) :
    (marginOf L).all isIndentChar = true := by
  unfold marginOf
  cases hfm : L.filterMap lineIndent with
  | nil => rfl
  | cons i is =>
    have hmem : ∀ x ∈ L.filterMap lineIndent, x.all isIndentChar = true := by
      intro x hx
      obtain ⟨l, _, hli⟩ := List.mem_filterMap.mp hx
      unfold lineIndent at hli
      rcases hdw : l.dropWhile isIndentChar with _ | ⟨c, cs⟩
      · rw [hdw] at hli
        simp at hli
      · rw [hdw] at hli
        by_cases hcnl : c = '\n'
        · simp [hcnl] at hli
        · simp only [hcnl, if_false, Option.some.injEq] at hli
          rw [← hli]
          exact takeWhile_all_self isIndentChar l
    have hhead : i.all isIndentChar = true :=
      hmem i (by rw [hfm]; exact List.mem_cons_self i is)
    have hfold : ∀ (js : List (List Char)) (acc : List Char),
        acc.all isIndentChar = true → (js.foldl lcp acc).all isIndentChar = true := by
      intro js
      induction js with
      | nil => intro acc h; exact h
      | cons j js2 ih2 =>
        intro acc h
        exact ih2 (lcp acc j) (lcp_all_left acc j isIndentChar h)
    exact hfold is i hhead

theorem isPrefixOf_append_drop (m l : List Char) (h : m.isPrefixOf l = true) :
    m ++ l.drop m.length = l := by
  induction m generalizing l with
  | nil => simp
  | cons c cs ih =>
    cases l with
    | nil => simp [List.isPrefixOf] at h
    | cons d ds =>
      simp only [List.isPrefixOf, Bool.and_eq_true, beq_iff_eq] at h
      rw [h.1]
      show d :: (cs ++ ds.drop cs.length) = d :: ds
      rw [ih ds h.2]

theorem filter_removeMargin (m l : List Char) (hm : m.all isIndentChar = true) :
    (removeMargin m l).filter keepVisible = l.filter keepVisible := by
  unfold removeMargin
  by_cases hp : m.isPrefixOf l
  · rw [if_pos hp]
    conv_rhs => rw [← isPrefixOf_append_drop m l hp]
    rw [List.filter_append, filter_of_all_indent m hm]
    rfl
  · rw [if_neg hp]

theorem filter_removeMargin_map (L : List (List Char)) (m : List Char)
    (hm : m.all isIndentChar = true) :
    List.map (List.filter keepVisible) (List.map (removeMargin m) (List.map normalizeLine L)) =
      List.map (List.filter keepVisible) L := by
  induction L with
  | nil => rfl
  | cons l ls ih =>
    simp only [List.map_cons]
    rw [filter_removeMargin m (normalizeLine l) hm, filter_normalizeLine, ih]

theorem filter_dedentChars (s : List Char) :
    (dedentChars s).filter keepVisible = s.filter keepVisible := by
  show (joinNl (((splitNlChars s).map normalizeLine).map
    (removeMargin (marginOf ((splitNlChars s).map normalizeLine))))).filter keepVisible = _
  rw [joinNl_filter]
  rw [filter_removeMargin_map (splitNlChars s)
    (marginOf ((splitNlChars s).map normalizeLine))
    (marginOf_all_indent ((splitNlChars s).map normalizeLine))]
  exact (filter_splitNl s).symm

theorem visible_pyStrip (s : String) : visibleChars (pyStrip s) = visibleChars s := by
  show (stripChars s.data).filter keepVisible = s.data.filter keepVisible
  exact filter_strip s.data

theorem visible_pyDedent (s : String) : visibleChars (pyDedent s) = visibleChars s := by
  show (dedentChars s.data).filter keepVisible = s.data.filter keepVisible
  exact filter_dedentChars s.data

theorem visible_append (a b : String) :
    visibleChars (a ++ b) = visibleChars a ++ visibleChars b := by
  unfold visibleChars
  rw [sdata_append, List.filter_append]

theorem visible_contextPart (D : Type) (p : RagService.Passage D) :
    visibleChars (RagService.contextPart p) =
      '[' :: (visibleChars (p.2.1.source.getD "unknown") ++ ']' :: visibleChars p.1) := by
  show (RagService.contextPart p).data.filter keepVisible = _
  rw [contextPart_data]
  rw [show ('[' :: ((p.2.1.source.getD "unknown").data ++ ("] ".data ++ p.1.data))) =
    ['['] ++ ((p.2.1.source.getD "unknown").data ++ ("] ".data ++ p.1.data)) from rfl]
  rw [List.filter_append, List.filter_append, List.filter_append]
  rw [show (['['] : List Char).filter keepVisible = ['['] from by decide]
  rw [show ("] ".data).filter keepVisible = [']'] from by decide]
  rfl

theorem visible_contextOf (D : Type) (ps : List (RagService.Passage D)) :
    visibleChars (RagService.contextOf ps) =
      (ps.map fun p =>
        '[' :: (visibleChars (p.2.1.source.getD "unknown") ++ ']' :: visibleChars p.1)).flatten := by
  induction ps with
  | nil => rfl
  | cons p rest ih =>
    cases rest with
    | nil =>
      show visibleChars (RagService.contextPart p) = _
      rw [visible_contextPart]
      simp
    | cons p2 rest2 =>
      rw [show RagService.contextOf (p :: p2 :: rest2) =
        RagService.contextPart p ++ "\n\n" ++ RagService.contextOf (p2 :: rest2) from rfl]
      rw [visible_append, visible_append]
      rw [show visibleChars "\n\n" = [] from by decide]
      rw [visible_contextPart, ih]
      simp

/-- Claim C7, amended: for every question and every list of retrieved
passages — including passages whose text spans several lines — the user
message consists, in order, of the request header, the literal question, the
context header, and the context block: each passage's provenance tag
interleaved with its text in the order the passages were supplied, with the
literal placeholder replacing the block when the list is empty.  The question
precedes the context block, not the reverse.  The equality is stated on the
non-whitespace character sequence, which the dedent-and-strip pipeline
provably never touches, because `textwrap.dedent`'s margin removal reshapes
the whitespace layout itself whenever an interpolated passage line defeats
the template's margin. -/
theorem build_prompt_user_msg_structure (D : Type) (q : String)
    (ps : List (RagService.Passage D)) :
    visibleChars (RagService.build_prompt q ps).2 =
      visibleChars "Запрос пользователя: " ++ visibleChars q
        ++ visibleChars "Контекст из базы знаний:"
        ++ visibleChars (if RagService.contextOf ps = "" then RagService.noContextMsg
            else RagService.contextOf ps) ∧
    visibleChars (RagService.contextOf ps) =
      (ps.map fun p =>
        '[' :: (visibleChars (p.2.1.source.getD "unknown") ++ ']' :: visibleChars p.1)).flatten := by
  constructor
  · show visibleChars (pyStrip (pyDedent (RagService.userTemplate q
      (if RagService.contextOf ps = "" then RagService.noContextMsg
        else RagService.contextOf ps)))) = _
    rw [visible_pyStrip, visible_pyDedent]
    unfold RagService.userTemplate
    rw [visible_append, visible_append, visible_append, visible_append]
    rw [show visibleChars "            Запрос пользователя: " =
      visibleChars "Запрос пользователя: " from by decide]
    rw [show visibleChars "\n            \n            Контекст из базы знаний:\n            " =
      visibleChars "Контекст из базы знаний:" from by decide]
    rw [show visibleChars "\n            " = [] from by decide]
    simp [List.append_assoc]
  · exact visible_contextOf D ps
